import Mathlib

/-!
Verification of the Retrieval & Context Assembly Engine
(`rag_pipeline`): the multi-stage retrieval funnel (`agents/rag_agents.py`),
the metadata-aware chunker (`loaders/document_loader.py`) and the job memory
manager (`memory/job_memory.py`), shallowly embedded in Lean.

Modelling conventions:
* Python floats are modelled as rationals (`ℚ`); Python ints as `Int`/`Nat`.
* Python dictionaries with a fixed key set are modelled as structures; keys
  that may be absent become `Option` fields, and `dict.get(k, d)` becomes
  `Option.getD`.
* Fallible code (code that can raise) is modelled with `Except`.
* Strings are Lean `String`s (sequences of code points, matching Python's
  `str` indexing/length semantics); `str.strip()`/`str.lower()` are modelled
  with `String.trim`/`String.toLower` (ASCII-faithful, which covers every
  input appearing in the theorems below).
-/

namespace RagPipeline

/-- `RetrievalConfig` from `config/settings.py` (the fields consumed by the
retrieval funnel). -/
structure RetrievalConfig where
  stage1_top_k : Nat
  similarity_threshold : ℚ
  stage3_top_k : Nat
  reranker_model : String
  max_context_tokens : Nat
  enable_deduplication : Bool
  enable_chunk_merging : Bool
  enable_source_attribution : Bool
  deriving Repr, DecidableEq

/-- The default `RetrievalConfig()` values from `config/settings.py`. -/
def defaultRetrievalConfig : RetrievalConfig :=
  { stage1_top_k := 50
    similarity_threshold := 3 / 4
    stage3_top_k := 15
    reranker_model := "cross-encoder/ms-marco-MiniLM-L-12-v2"
    max_context_tokens := 15000
    enable_deduplication := true
    enable_chunk_merging := true
    enable_source_attribution := true }

/-- The chunk-metadata dictionary as used by the funnel: every key that the
code reads with `metadata.get(...)` is an `Option` field (absent key =
`none`).  `section` is spelled `sec` because `section` is a Lean keyword. -/
structure Metadata where
  source_file : Option String := none
  sec : Option String := none
  heading : Option String := none
  chunk_index : Option Int := none
  token_count : Option Nat := none
  merged : Bool := false
  attribution : Option String := none
  deriving Repr, DecidableEq

/-- `RetrievalResult` dataclass from `agents/rag_agents.py`. -/
structure RetrievalResult where
  id : String
  text : String
  metadata : Metadata
  similarity : ℚ
  rank : Option Nat := none
  rerank_score : Option ℚ := none
  deriving Repr, DecidableEq

/-! ## Stage 2 — `AgentR04_RelevanceFiltering.filter` -/

/-- `AgentR04_RelevanceFiltering.filter`: keep the results whose
`similarity` is at least `config.similarity_threshold`
(`[r for r in results if r.similarity >= self.config.similarity_threshold]`). -/
def filterStage (config : RetrievalConfig) (results : List RetrievalResult) :
    List RetrievalResult :=
  results.filter fun r => config.similarity_threshold ≤ r.similarity

/-! ## Stage 1 — `AgentR03_SemanticSearch.search` -/

/-- A raw hit returned by the vector store (`search`/`hybrid_search`), a
dictionary with `id`, `text`, `metadata` and a `similarity` or `score` key. -/
structure SearchHit where
  id : String
  text : String
  metadata : Metadata
  similarity : Option ℚ := none
  score : Option ℚ := none
  deriving Repr, DecidableEq

/-- The conversion performed in `AgentR03_SemanticSearch.search`:
`result.get('similarity', result.get('score', 0.0))`. -/
def hitToResult (h : SearchHit) : RetrievalResult :=
  { id := h.id
    text := h.text
    metadata := h.metadata
    similarity := (match h.similarity with
      | some s => s
      | none => h.score.getD 0) }

/-- `AgentR03_SemanticSearch.search`, given the list of hits returned by the
vector store.  After converting the hits, the method unconditionally logs
`min(r.similarity for r in retrieval_results)` and
`max(...)`; on an empty hit list Python's `min` raises
`ValueError: min() arg is an empty sequence`, so the empty case is an error
path, not a normal return. -/
def searchStage (hits : List SearchHit) :
    Except String (List RetrievalResult) :=
  let retrieval_results := hits.map hitToResult
  if retrieval_results.isEmpty then
    Except.error "ValueError: min() arg is an empty sequence"
  else
    Except.ok retrieval_results

/-! ## Theorems for C2 and C3 -/

/-- C2: Stage 2 outputs exactly the results with `similarity ≥ threshold`:
the output is a sublist of the input (order preserved), a result of the
input is kept iff its similarity reaches the threshold, the output is never
longer than the input, and raising the threshold never increases the
output's length. -/
theorem relevance_filtering_threshold_semantics :
    ∀ (config : RetrievalConfig) (results : List RetrievalResult),
      (filterStage config results).Sublist results
      ∧ (∀ r ∈ results,
          r ∈ filterStage config results ↔ config.similarity_threshold ≤ r.similarity)
      ∧ (filterStage config results).length ≤ results.length
      ∧ ∀ t₁ t₂ : ℚ, t₁ ≤ t₂ →
          (filterStage { config with similarity_threshold := t₂ } results).length ≤
            (filterStage { config with similarity_threshold := t₁ } results).length := by
  intro config results
  refine ⟨List.filter_sublist _, ?_, List.length_filter_le _ _, ?_⟩
  · intro r hr
    simp [filterStage, List.mem_filter, hr]
  · intro t₁ t₂ ht
    apply List.Sublist.length_le
    apply List.monotone_filter_right
    intro r h
    simp only [decide_eq_true_eq] at h ⊢
    exact le_trans ht h

/-- Witness for C2 at a concrete input. -/
theorem relevance_filtering_threshold_semantics_witness :
    ((1 : ℚ) / 2 ≤ 3 / 4)
    ∧ (filterStage { defaultRetrievalConfig with similarity_threshold := 3 / 4 }
          [{ id := "a", text := "ta", metadata := {}, similarity := 9 / 10 },
           { id := "b", text := "tb", metadata := {}, similarity := 3 / 5 }]).length ≤
        (filterStage { defaultRetrievalConfig with similarity_threshold := 1 / 2 }
          [{ id := "a", text := "ta", metadata := {}, similarity := 9 / 10 },
           { id := "b", text := "tb", metadata := {}, similarity := 3 / 5 }]).length :=
  ⟨by norm_num,
    (relevance_filtering_threshold_semantics defaultRetrievalConfig
      [{ id := "a", text := "ta", metadata := {}, similarity := 9 / 10 },
       { id := "b", text := "tb", metadata := {}, similarity := 3 / 5 }]).2.2.2
      (1 / 2) (3 / 4) (by norm_num)⟩

/-! ## Stage 4 — `AgentR05_ContextAssembly.assemble_context`

The method is embedded compositionally, one named definition per numbered
step of the source (deduplication, adjacency merge, sort, attribution,
token optimization, final build), applied in the source's order. -/

/-! ### Python string primitives

The Lean core `String` functions (`split`, `map`, `trim`, `take`, ...) are
defined by well-founded recursion on byte positions, which the kernel does
not reduce; the Python string operations the sources use are therefore
modelled by structurally recursive functions on the character list, which
match Python's code-point semantics directly. -/

/-- `str.lower()` (ASCII case mapping, which covers every input below). -/
def pyLower (s : String) : String := String.mk (s.data.map Char.toLower)

/-- Accumulator loop for `str.split()`: split on whitespace runs, dropping
empty pieces. -/
def pyWordsGo (cur : List Char) : List Char → List (List Char)
  | [] => if cur = [] then [] else [cur.reverse]
  | c :: cs =>
    if c.isWhitespace then
      if cur = [] then pyWordsGo [] cs else cur.reverse :: pyWordsGo [] cs
    else pyWordsGo (c :: cur) cs

/-- `str.split()` with no separator argument. -/
def pySplit (s : String) : List String := (pyWordsGo [] s.data).map String.mk

/-- `s[:n]` on a Python string (first `n` code points). -/
def pySlice (s : String) (n : Nat) : String := String.mk (s.data.take n)

/-- `str.strip()`: remove leading and trailing whitespace. -/
def pyStrip (s : String) : String :=
  String.mk (((s.data.dropWhile Char.isWhitespace).reverse.dropWhile
    Char.isWhitespace).reverse)

/-- `AgentR05_ContextAssembly.normalize_text`:
`' '.join(text.lower().split())[:length]`. -/
def normalize_text (text : String) (length : Nat := 100) : String :=
  pySlice (String.intercalate " " (pySplit (pyLower text))) length

/-- `AgentR05_ContextAssembly.is_adjacent`: same `source_file`, both
`chunk_index` values present (the code treats the default `-1` as absent)
and differing by exactly 1. -/
def is_adjacent (chunk1 chunk2 : RetrievalResult) : Bool :=
  if chunk1.metadata.source_file ≠ chunk2.metadata.source_file then false
  else
    let idx1 := chunk1.metadata.chunk_index.getD (-1)
    let idx2 := chunk2.metadata.chunk_index.getD (-1)
    if idx1 = -1 ∨ idx2 = -1 then false
    else (idx1 - idx2).natAbs = 1

/-- Step 1 (deduplication) loop: skip a result whose signature is in
`seen_signatures`, otherwise keep it and record its signature. -/
def dedupGo (seen : List String) : List RetrievalResult → List RetrievalResult
  | [] => []
  | r :: rest =>
    if normalize_text r.text ∈ seen then dedupGo seen rest
    else r :: dedupGo (normalize_text r.text :: seen) rest

/-- Step 1: deduplication with an initially empty signature set. -/
def dedupStep (results : List RetrievalResult) : List RetrievalResult :=
  dedupGo [] results

/-- The in-place merge of step 2: concatenate the texts joined by a blank
line into the first chunk and set its `merged` flag; `token_count` is left
untouched. -/
def mergePair (current next_chunk : RetrievalResult) : RetrievalResult :=
  { current with
      text := current.text ++ "\n\n" ++ next_chunk.text
      metadata := { current.metadata with merged := true } }

/-- Step 2 (adjacency merge): the single forward pass of the source's
`while` loop — on a merge, `i` advances by 2, so a merged chunk is never
re-merged in the same pass. -/
def mergeStep : List RetrievalResult → List RetrievalResult
  | [] => []
  | [c] => [c]
  | c1 :: c2 :: rest =>
    if is_adjacent c1 c2 then mergePair c1 c2 :: mergeStep rest
    else c1 :: mergeStep (c2 :: rest)

/-- Step 2 guarded by `config.enable_chunk_merging`. -/
def mergeStepIf (config : RetrievalConfig) (l : List RetrievalResult) :
    List RetrievalResult :=
  if config.enable_chunk_merging then mergeStep l else l

/-- Python string comparison (`<` by code points), as a structurally
recursive Boolean so that the kernel can evaluate it. -/
def pyStrLtB : List Char → List Char → Bool
  | [], [] => false
  | [], _ :: _ => true
  | _ :: _, [] => false
  | a :: as, b :: bs => if a < b then true else if b < a then false else pyStrLtB as bs

theorem pyStrLtB_irrefl : ∀ s, pyStrLtB s s = false := by
  intro s
  induction s with
  | nil => rfl
  | cons a as ih => simp [pyStrLtB, lt_irrefl, ih]

theorem pyStrLtB_eq_of_not_lt :
    ∀ s t, pyStrLtB s t = false → pyStrLtB t s = false → s = t := by
  intro s
  induction s with
  | nil => intro t h1 _; cases t with
    | nil => rfl
    | cons b bs => simp [pyStrLtB] at h1
  | cons a as ih =>
    intro t h1 h2
    cases t with
    | nil => simp [pyStrLtB] at h2
    | cons b bs =>
      by_cases hab : a < b
      · simp [pyStrLtB, hab] at h1
      · by_cases hba : b < a
        · simp [pyStrLtB, hba, hab] at h2
        · have hab' : a = b := le_antisymm (not_lt.mp hba) (not_lt.mp hab)
          subst hab'
          simp only [pyStrLtB, if_neg hab, if_neg hba] at h1 h2
          rw [ih bs h1 h2]

theorem pyStrLtB_trans :
    ∀ s t u, pyStrLtB s t = true → pyStrLtB t u = true → pyStrLtB s u = true := by
  intro s
  induction s with
  | nil =>
    intro t u h1 h2
    cases t with
    | nil => simp [pyStrLtB] at h1
    | cons b bs =>
      cases u with
      | nil => simp [pyStrLtB] at h2
      | cons c cs => rfl
  | cons a as ih =>
    intro t u h1 h2
    cases t with
    | nil => simp [pyStrLtB] at h1
    | cons b bs =>
      cases u with
      | nil => simp [pyStrLtB] at h2
      | cons c cs =>
        by_cases hab : a < b
        · by_cases hbc : b < c
          · simp [pyStrLtB, lt_trans hab hbc]
          · by_cases hcb : c < b
            · simp [pyStrLtB, hbc, hcb] at h2
            · have : b = c := le_antisymm (not_lt.mp hcb) (not_lt.mp hbc)
              subst this
              simp [pyStrLtB, hab]
        · by_cases hba : b < a
          · simp [pyStrLtB, hab, hba] at h1
          · have : a = b := le_antisymm (not_lt.mp hba) (not_lt.mp hab)
            subst this
            simp only [pyStrLtB, if_neg hab, if_neg hba] at h1
            by_cases hac : a < c
            · simp [pyStrLtB, hac]
            · by_cases hca : c < a
              · simp [pyStrLtB, hac, hca] at h2
              · have : a = c := le_antisymm (not_lt.mp hca) (not_lt.mp hac)
                subst this
                simp only [pyStrLtB, if_neg hac, pyStrLtB_irrefl, if_neg (lt_irrefl a)] at h2 ⊢
                exact ih bs cs h1 h2

/-- The first component of step 3's sort key:
`c.metadata.get('source_file', '')`. -/
def srcKey (c : RetrievalResult) : List Char := (c.metadata.source_file.getD "").data

/-- The second component of step 3's sort key:
`c.metadata.get('chunk_index', 0)`. -/
def idxKey (c : RetrievalResult) : Int := c.metadata.chunk_index.getD 0

/-- The comparison used by step 3's `list.sort(key=...)`: Python tuple
order, i.e. lexicographic on `(source_file, chunk_index)`. -/
def keyLeB (a b : RetrievalResult) : Bool :=
  if pyStrLtB (srcKey a) (srcKey b) then true
  else if pyStrLtB (srcKey b) (srcKey a) then false
  else decide (idxKey a ≤ idxKey b)

/-- `keyLeB` as a relation for `List.insertionSort`. -/
def keyLe (a b : RetrievalResult) : Prop := keyLeB a b = true

instance : DecidableRel keyLe := fun a b =>
  inferInstanceAs (Decidable (keyLeB a b = true))

instance : IsTotal RetrievalResult keyLe := by
  constructor
  intro a b
  by_cases hab : pyStrLtB (srcKey a) (srcKey b) = true
  · exact Or.inl (by simp [keyLe, keyLeB, hab])
  · by_cases hba : pyStrLtB (srcKey b) (srcKey a) = true
    · exact Or.inr (by simp [keyLe, keyLeB, hba])
    · have heq := pyStrLtB_eq_of_not_lt _ _ (Bool.not_eq_true _ ▸ hab)
        (Bool.not_eq_true _ ▸ hba)
      rcases le_total (idxKey a) (idxKey b) with h | h
      · exact Or.inl (by simp [keyLe, keyLeB, hab, hba, h])
      · exact Or.inr (by simp [keyLe, keyLeB, heq, pyStrLtB_irrefl, h])

instance : IsTrans RetrievalResult keyLe := by
  constructor
  intro a b c h1 h2
  simp only [keyLe, keyLeB] at h1 h2 ⊢
  by_cases hab : pyStrLtB (srcKey a) (srcKey b) = true
  · by_cases hbc : pyStrLtB (srcKey b) (srcKey c) = true
    · simp [pyStrLtB_trans _ _ _ hab hbc]
    · by_cases hcb : pyStrLtB (srcKey c) (srcKey b) = true
      · simp [hbc, hcb] at h2
      · have heq := pyStrLtB_eq_of_not_lt _ _ (Bool.not_eq_true _ ▸ hbc)
          (Bool.not_eq_true _ ▸ hcb)
        rw [← heq]
        simp [hab]
  · by_cases hba : pyStrLtB (srcKey b) (srcKey a) = true
    · simp [hab, hba] at h1
    · have heq := pyStrLtB_eq_of_not_lt _ _ (Bool.not_eq_true _ ▸ hab)
        (Bool.not_eq_true _ ▸ hba)
      rw [heq]
      simp only [if_neg hab, if_neg hba, decide_eq_true_eq] at h1
      by_cases hbc : pyStrLtB (srcKey b) (srcKey c) = true
      · simp [hbc]
      · by_cases hcb : pyStrLtB (srcKey c) (srcKey b) = true
        · simp [hbc, hcb] at h2
        · simp only [if_neg hbc, if_neg hcb, decide_eq_true_eq] at h2 ⊢
          exact le_trans h1 h2

/-- Step 3: Python's `list.sort` is a stable sort by the key; insertion
sort with `keyLe` computes exactly that list. -/
def sortStep (l : List RetrievalResult) : List RetrievalResult :=
  l.insertionSort keyLe

/-- The bracketed citation string built in step 4. -/
def attributionText (m : Metadata) : String :=
  let source := m.source_file.getD "Unknown"
  let s := m.sec.getD ""
  let h := m.heading.getD ""
  let a1 := "[Source: " ++ source
  let a2 := if s ≠ "" ∧ s ≠ "Unknown" then a1 ++ ", Section " ++ s else a1
  let a3 := if h ≠ "" ∧ h ≠ "Unknown" then a2 ++ " - " ++ h else a2
  a3 ++ "]"

/-- Step 4 on one chunk: store the citation under `metadata['attribution']`. -/
def attribOne (c : RetrievalResult) : RetrievalResult :=
  { c with metadata := { c.metadata with attribution := some (attributionText c.metadata) } }

/-- Step 4 guarded by `config.enable_source_attribution`. -/
def attribStep (config : RetrievalConfig) (l : List RetrievalResult) :
    List RetrievalResult :=
  if config.enable_source_attribution then l.map attribOne else l

/-- `c.metadata.get('token_count', len(c.text) // 4)`. -/
def chunkTokens (c : RetrievalResult) : Nat :=
  c.metadata.token_count.getD (c.text.length / 4)

/-- The token sum computed at the start of step 5. -/
def sumTokens (l : List RetrievalResult) : Nat := (l.map chunkTokens).sum

/-- Step 5's trimming loop: include a chunk while the running total stays
within the budget, `break` at the first chunk that does not fit; returns
the kept chunks together with the final `current_tokens`. -/
def trimGo (maxTok : Nat) : List RetrievalResult → Nat → List RetrievalResult × Nat
  | [], current => ([], current)
  | c :: rest, current =>
    if current + chunkTokens c ≤ maxTok then
      let p := trimGo maxTok rest (current + chunkTokens c)
      (c :: p.1, p.2)
    else ([], current)

/-- Steps 1–4 (everything before token optimization). -/
def preAssembled (config : RetrievalConfig) (results : List RetrievalResult) :
    List RetrievalResult :=
  attribStep config (sortStep (mergeStepIf config (dedupStep results)))

/-- The chunk list surviving step 5. -/
def assembledChunks (config : RetrievalConfig) (results : List RetrievalResult) :
    List RetrievalResult :=
  let l := preAssembled config results
  if sumTokens l > config.max_context_tokens then
    (trimGo config.max_context_tokens l 0).1
  else l

/-- The `total_tokens` value reported by step 5. -/
def assembledTotal (config : RetrievalConfig) (results : List RetrievalResult) : Nat :=
  let l := preAssembled config results
  if sumTokens l > config.max_context_tokens then
    (trimGo config.max_context_tokens l 0).2
  else sumTokens l

/-- The result dictionary of `assemble_context`.  The early-return
dictionary for an empty input has no `num_chunks` key, so that key is an
`Option`. -/
structure AssembledContext where
  context : String
  chunks : List RetrievalResult
  total_tokens : Nat
  sources : List String
  num_chunks : Option Nat
  deriving Repr, DecidableEq

/-- One piece of step 6's `context_parts`. -/
def contextPart (config : RetrievalConfig) (c : RetrievalResult) : String :=
  if config.enable_source_attribution then
    (c.metadata.attribution.getD "") ++ "\n" ++ c.text
  else c.text

/-- Step 6's `sources` set, kept in first-occurrence order.  (Python lists
a `set`; within one process, equal sets list identically, so list equality
here models set equality.) -/
def sourcesGo (acc : List String) : List RetrievalResult → List String
  | [] => acc
  | c :: rest =>
    let s := c.metadata.source_file.getD "Unknown"
    sourcesGo (if s ∈ acc then acc else acc ++ [s]) rest

/-- Collect the distinct `source_file` values of the surviving chunks. -/
def collectSources (l : List RetrievalResult) : List String := sourcesGo [] l

/-- `AgentR05_ContextAssembly.assemble_context`. -/
def assemble_context (config : RetrievalConfig) (results : List RetrievalResult) :
    AssembledContext :=
  if results.isEmpty then ⟨"", [], 0, [], none⟩
  else
    let assembled := assembledChunks config results
    ⟨String.intercalate "\n\n---\n\n" (assembled.map (contextPart config)),
      assembled,
      assembledTotal config results,
      collectSources assembled,
      some assembled.length⟩

/-! ### Facts about the trimming loop -/

theorem trimGo_snd_le (maxTok : Nat) :
    ∀ (l : List RetrievalResult) (current : Nat), current ≤ maxTok →
      (trimGo maxTok l current).2 ≤ maxTok := by
  intro l
  induction l with
  | nil => intro current h; simpa [trimGo] using h
  | cons c rest ih =>
    intro current h
    by_cases hc : current + chunkTokens c ≤ maxTok
    · simpa [trimGo, hc] using ih _ hc
    · simpa [trimGo, hc] using h

theorem trimGo_snd_ge (maxTok : Nat) :
    ∀ (l : List RetrievalResult) (current : Nat), current ≤ (trimGo maxTok l current).2 := by
  intro l
  induction l with
  | nil => intro current; simp [trimGo]
  | cons c rest ih =>
    intro current
    by_cases hc : current + chunkTokens c ≤ maxTok
    · have := ih (current + chunkTokens c)
      simp only [trimGo, hc, if_pos]
      omega
    · simp [trimGo, hc]

theorem trimGo_snd_le_sum (maxTok : Nat) :
    ∀ (l : List RetrievalResult) (current : Nat),
      (trimGo maxTok l current).2 ≤ current + sumTokens l := by
  intro l
  induction l with
  | nil => intro current; simp [trimGo, sumTokens]
  | cons c rest ih =>
    intro current
    by_cases hc : current + chunkTokens c ≤ maxTok
    · have := ih (current + chunkTokens c)
      simp only [trimGo, hc, if_pos, sumTokens, List.map_cons, List.sum_cons] at *
      omega
    · simp only [trimGo, hc, if_neg, not_false_iff, sumTokens]
      omega

theorem trimGo_snd_mono {m₂ m₁ : Nat} (h : m₂ ≤ m₁) :
    ∀ (l : List RetrievalResult) (current : Nat),
      (trimGo m₂ l current).2 ≤ (trimGo m₁ l current).2 := by
  intro l
  induction l with
  | nil => intro current; simp [trimGo]
  | cons c rest ih =>
    intro current
    by_cases hc2 : current + chunkTokens c ≤ m₂
    · have hc1 : current + chunkTokens c ≤ m₁ := le_trans hc2 h
      simpa [trimGo, hc2, hc1] using ih (current + chunkTokens c)
    · by_cases hc1 : current + chunkTokens c ≤ m₁
      · have := trimGo_snd_ge m₁ rest (current + chunkTokens c)
        simp only [trimGo, hc2, hc1, if_pos, if_neg, not_false_iff]
        omega
      · simp [trimGo, hc2, hc1]

theorem trimGo_snd_eq_sum_fst (maxTok : Nat) :
    ∀ (l : List RetrievalResult) (current : Nat),
      (trimGo maxTok l current).2 = current + sumTokens (trimGo maxTok l current).1 := by
  intro l
  induction l with
  | nil => intro current; simp [trimGo, sumTokens]
  | cons c rest ih =>
    intro current
    by_cases hc : current + chunkTokens c ≤ maxTok
    · have := ih (current + chunkTokens c)
      simp only [trimGo, hc, if_pos, sumTokens, List.map_cons, List.sum_cons] at *
      omega
    · simp [trimGo, hc, sumTokens]

theorem trimGo_fst_append (maxTok : Nat) :
    ∀ (l : List RetrievalResult) (current : Nat),
      ∃ rest, (trimGo maxTok l current).1 ++ rest = l := by
  intro l
  induction l with
  | nil => intro current; exact ⟨[], rfl⟩
  | cons c rest ih =>
    intro current
    by_cases hc : current + chunkTokens c ≤ maxTok
    · obtain ⟨tl, htl⟩ := ih (current + chunkTokens c)
      exact ⟨tl, by simp [trimGo, hc, htl]⟩
    · exact ⟨c :: rest, by simp [trimGo, hc]⟩

/-- Steps 1–4 do not read `max_context_tokens`. -/
theorem preAssembled_max_irrelevant (config : RetrievalConfig) (m : Nat)
    (results : List RetrievalResult) :
    preAssembled { config with max_context_tokens := m } results =
      preAssembled config results := rfl

/-- C1: the reported `total_tokens` never exceeds `max_context_tokens`; the
surviving chunks are a greedy prefix of the (deduplicated, merged,
reordered, attributed) chunk list in its current order; and shrinking the
budget never increases the reported total. -/
theorem context_assembly_token_budget :
    ∀ (config : RetrievalConfig) (results : List RetrievalResult),
      (assemble_context config results).total_tokens ≤ config.max_context_tokens
      ∧ (∃ rest, (assemble_context config results).chunks ++ rest =
            preAssembled config results)
      ∧ ∀ m₂ m₁ : Nat, m₂ ≤ m₁ →
          (assemble_context { config with max_context_tokens := m₂ } results).total_tokens ≤
            (assemble_context { config with max_context_tokens := m₁ } results).total_tokens := by
  intro config results
  by_cases hres : results.isEmpty
  · refine ⟨by simp [assemble_context, hres], ⟨preAssembled config results, by simp [assemble_context, hres]⟩, ?_⟩
    intro m₂ m₁ _
    simp [assemble_context, hres]
  · refine ⟨?_, ?_, ?_⟩
    · simp only [assemble_context, hres, if_neg, not_false_iff, assembledTotal]
      by_cases hbig : sumTokens (preAssembled config results) > config.max_context_tokens
      · simpa [hbig] using trimGo_snd_le config.max_context_tokens (preAssembled config results) 0 (Nat.zero_le _)
      · simpa [hbig] using le_of_not_lt hbig
    · simp only [assemble_context, hres, if_neg, not_false_iff, assembledChunks]
      by_cases hbig : sumTokens (preAssembled config results) > config.max_context_tokens
      · simpa [hbig] using trimGo_fst_append config.max_context_tokens (preAssembled config results) 0
      · exact ⟨[], by simp [hbig]⟩
    · intro m₂ m₁ hm
      simp only [assemble_context, hres, if_neg, not_false_iff, assembledTotal,
        preAssembled_max_irrelevant]
      set l := preAssembled config results with hl
      by_cases h2 : sumTokens l > m₂
      · by_cases h1 : sumTokens l > m₁
        · simpa [h2, h1] using trimGo_snd_mono hm l 0
        · have := trimGo_snd_le_sum m₂ l 0
          simp only [h2, h1, if_pos, if_neg, not_false_iff]
          simpa using this
      · have h1 : ¬ sumTokens l > m₁ := fun h => h2 (lt_of_le_of_lt hm h)
        simp [h2, h1]

/-- Witness for C1 at a concrete input. -/
theorem context_assembly_token_budget_witness :
    (5 ≤ 10)
    ∧ (assemble_context { defaultRetrievalConfig with max_context_tokens := 5 }
          [{ id := "a", text := "some text", metadata := { token_count := some 7 }, similarity := 1 }]).total_tokens ≤
        (assemble_context { defaultRetrievalConfig with max_context_tokens := 10 }
          [{ id := "a", text := "some text", metadata := { token_count := some 7 }, similarity := 1 }]).total_tokens :=
  ⟨by norm_num,
    (context_assembly_token_budget defaultRetrievalConfig
      [{ id := "a", text := "some text", metadata := { token_count := some 7 }, similarity := 1 }]).2.2
      5 10 (by norm_num)⟩

/-- C3: contrary to the claim, Stage 1 does not return an empty list when
the vector index returns zero results: the summary logging applies `min` to
an empty sequence and raises `ValueError` (its sibling stage
`AgentR04` guards the same log line with `if filtered:`, and §7 of the spec
says empty results are not errors, so this is a slip in the code). -/
theorem search_stage_empty_hits_raises :
    searchStage [] = Except.error "ValueError: min() arg is an empty sequence" := rfl

/-! ## C10 — the `num_chunks` key and the workflow's retrieve node -/

/-- `AgenticRAGWorkflow._retrieve` reads `result['num_chunks']`
(`workflows/agentic_rag.py`); a `none` here is a `KeyError` in Python. -/
def retrieveNodeNumChunks (result : AssembledContext) : Option Nat :=
  result.num_chunks

/-- C10: the empty-input early return carries empty `context`, `chunks`,
`sources` and zero `total_tokens` but no `num_chunks` key, while every
non-empty input produces one; the workflow's retrieve node therefore hits a
`KeyError` (a `none` read) exactly on the empty-result path. -/
theorem assembly_num_chunks_only_when_nonempty :
    ∀ (config : RetrievalConfig) (results : List RetrievalResult),
      assemble_context config [] = ⟨"", [], 0, [], none⟩
      ∧ ((assemble_context config results).num_chunks = none ↔ results = [])
      ∧ ((retrieveNodeNumChunks (assemble_context config results)).isNone ↔ results = []) := by
  intro config results
  refine ⟨rfl, ?_, ?_⟩ <;>
    cases results <;> simp [assemble_context, retrieveNodeNumChunks]

/-! ## C9 — merged chunks are budgeted at the first chunk's token count -/

/-- A configuration with a small budget, otherwise the defaults. -/
def exampleMergeConfig : RetrievalConfig :=
  { defaultRetrievalConfig with max_context_tokens := 10 }

/-- Two adjacent chunks of the same source whose stored `token_count` (5
each) is far below the `len(text)//4` estimate of their texts (40
characters each). -/
def exampleMergeResults : List RetrievalResult :=
  [{ id := "1"
     text := "aaaaaaaaaaaaaaaaaaaaaaaaaaaaaaaaaaaaaaaa"
     metadata := { source_file := some "doc", chunk_index := some 0, token_count := some 5 }
     similarity := 1 },
   { id := "2"
     text := "bbbbbbbbbbbbbbbbbbbbbbbbbbbbbbbbbbbbbbbb"
     metadata := { source_file := some "doc", chunk_index := some 1, token_count := some 5 }
     similarity := 1 }]

set_option maxRecDepth 8000 in
/-- C9: the in-place merge keeps the first chunk's `token_count` metadata
unchanged, so the budget step counts a merged chunk at the first chunk's
original count; concretely, the assembled context above reports
`total_tokens ≤ max_context_tokens` although the `len(text)//4` token total
of its surviving chunks exceeds the budget. -/
theorem merged_chunk_token_count_undercount :
    (∀ c₁ c₂ : RetrievalResult,
        (mergePair c₁ c₂).metadata.token_count = c₁.metadata.token_count)
    ∧ (assemble_context exampleMergeConfig exampleMergeResults).total_tokens ≤
        exampleMergeConfig.max_context_tokens
    ∧ exampleMergeConfig.max_context_tokens <
        (((assemble_context exampleMergeConfig exampleMergeResults).chunks.map
            (fun c => c.text.length / 4)).sum) := by
  refine ⟨fun c₁ c₂ => rfl, ?_, ?_⟩ <;> decide

/-! ## C7 — idempotence of Context Assembly -/

/-- A chunk's deduplication signature. -/
def sig (c : RetrievalResult) : String := normalize_text c.text

theorem sig_attribOne (c : RetrievalResult) : sig (attribOne c) = sig c := rfl

theorem keyLeB_attribOne (a b : RetrievalResult) :
    keyLeB (attribOne a) (attribOne b) = keyLeB a b := rfl

theorem chunkTokens_attribOne (c : RetrievalResult) :
    chunkTokens (attribOne c) = chunkTokens c := rfl

theorem attribOne_attribOne (c : RetrievalResult) :
    attribOne (attribOne c) = attribOne c := rfl

theorem dedupGo_not_mem :
    ∀ (l : List RetrievalResult) (seen : List String),
      ∀ c ∈ dedupGo seen l, sig c ∉ seen := by
  intro l
  induction l with
  | nil => intro seen c hc; simp [dedupGo] at hc
  | cons r rest ih =>
    intro seen c hc
    by_cases hmem : normalize_text r.text ∈ seen
    · rw [dedupGo, if_pos hmem] at hc
      exact ih seen c hc
    · rw [dedupGo, if_neg hmem] at hc
      rcases List.mem_cons.mp hc with rfl | hc'
      · exact hmem
      · have h := ih _ c hc'
        exact fun hin => h (List.mem_cons_of_mem _ hin)

theorem dedupGo_pairwise :
    ∀ (l : List RetrievalResult) (seen : List String),
      (dedupGo seen l).Pairwise (fun a b => sig a ≠ sig b) := by
  intro l
  induction l with
  | nil => intro seen; simp [dedupGo]
  | cons r rest ih =>
    intro seen
    by_cases hmem : normalize_text r.text ∈ seen
    · rw [dedupGo, if_pos hmem]; exact ih seen
    · rw [dedupGo, if_neg hmem]
      refine List.Pairwise.cons ?_ (ih _)
      intro b hb heq
      have h := dedupGo_not_mem rest _ b hb
      exact h (by rw [← heq]; exact List.mem_cons_self _ _)

theorem dedupGo_eq_self :
    ∀ (l : List RetrievalResult) (seen : List String),
      (∀ c ∈ l, sig c ∉ seen) →
      l.Pairwise (fun a b => sig a ≠ sig b) →
      dedupGo seen l = l := by
  intro l
  induction l with
  | nil => intro seen _ _; rfl
  | cons r rest ih =>
    intro seen hseen hpw
    have hr : normalize_text r.text ∉ seen := hseen r (List.mem_cons_self _ _)
    rw [dedupGo, if_neg hr]
    congr 1
    refine ih _ ?_ (List.Pairwise.of_cons hpw)
    intro c hc hmem
    rcases List.mem_cons.mp hmem with heq | hmem'
    · exact (List.rel_of_pairwise_cons hpw hc) heq.symm
    · exact hseen c (List.mem_cons_of_mem _ hc) hmem'

theorem list_map_id_of_mem {α : Type} {f : α → α} :
    ∀ (l : List α), (∀ x ∈ l, f x = x) → l.map f = l := by
  intro l
  induction l with
  | nil => intro _; rfl
  | cons a t ih =>
    intro h
    rw [List.map_cons, h a (List.mem_cons_self a t),
      ih fun x hx => h x (List.mem_cons_of_mem _ hx)]

/-- The chunk list surviving step 5 is a sublist (in fact a prefix) of the
pre-trim list. -/
theorem assembledChunks_sublist (config : RetrievalConfig)
    (results : List RetrievalResult) :
    (assembledChunks config results).Sublist (preAssembled config results) := by
  by_cases hbig : sumTokens (preAssembled config results) > config.max_context_tokens
  · obtain ⟨rest, hrest⟩ :=
      trimGo_fst_append config.max_context_tokens (preAssembled config results) 0
    rw [assembledChunks, if_pos hbig]
    have hsub := List.sublist_append_left
      (trimGo config.max_context_tokens (preAssembled config results) 0).1 rest
    rwa [hrest] at hsub
  · rw [assembledChunks, if_neg hbig]

theorem sumTokens_assembledChunks_le (config : RetrievalConfig)
    (results : List RetrievalResult) :
    sumTokens (assembledChunks config results) ≤ config.max_context_tokens := by
  by_cases hbig : sumTokens (preAssembled config results) > config.max_context_tokens
  · rw [assembledChunks, if_pos hbig]
    have h1 := trimGo_snd_eq_sum_fst config.max_context_tokens (preAssembled config results) 0
    have h2 := trimGo_snd_le config.max_context_tokens (preAssembled config results) 0
      (Nat.zero_le _)
    omega
  · rw [assembledChunks, if_neg hbig]
    exact le_of_not_lt hbig

theorem assembledTotal_eq_sum (config : RetrievalConfig)
    (results : List RetrievalResult) :
    assembledTotal config results = sumTokens (assembledChunks config results) := by
  by_cases hbig : sumTokens (preAssembled config results) > config.max_context_tokens
  · rw [assembledTotal, assembledChunks]
    simp only [if_pos hbig]
    have h1 := trimGo_snd_eq_sum_fst config.max_context_tokens (preAssembled config results) 0
    omega
  · rw [assembledTotal, assembledChunks]
    simp only [if_neg hbig]

theorem pairwise_sig_assembledChunks (config : RetrievalConfig)
    (results : List RetrievalResult)
    (hm : config.enable_chunk_merging = false) :
    (assembledChunks config results).Pairwise (fun a b => sig a ≠ sig b) := by
  refine List.Pairwise.sublist (assembledChunks_sublist config results) ?_
  have hded : (dedupStep results).Pairwise (fun a b => sig a ≠ sig b) :=
    dedupGo_pairwise results []
  have hmerge : mergeStepIf config (dedupStep results) = dedupStep results := by
    rw [mergeStepIf, hm]; rfl
  have hsorted : (sortStep (mergeStepIf config (dedupStep results))).Pairwise
      (fun a b => sig a ≠ sig b) := by
    rw [hmerge]
    exact ((List.perm_insertionSort keyLe (dedupStep results)).pairwise_iff
      (fun h h' => h h'.symm)).mpr hded
  rw [preAssembled, attribStep]
  by_cases hattr : config.enable_source_attribution = true
  · rw [if_pos hattr, List.pairwise_map]
    exact hsorted
  · rw [if_neg hattr]
    exact hsorted

theorem sorted_assembledChunks (config : RetrievalConfig)
    (results : List RetrievalResult) :
    (assembledChunks config results).Pairwise keyLe := by
  refine List.Pairwise.sublist (assembledChunks_sublist config results) ?_
  have hsorted : (sortStep (mergeStepIf config (dedupStep results))).Pairwise keyLe :=
    List.sorted_insertionSort keyLe (mergeStepIf config (dedupStep results))
  rw [preAssembled, attribStep]
  by_cases hattr : config.enable_source_attribution = true
  · rw [if_pos hattr, List.pairwise_map]
    exact hsorted
  · rw [if_neg hattr]
    exact hsorted

theorem attribOne_fixed_on_assembledChunks (config : RetrievalConfig)
    (results : List RetrievalResult)
    (hattr : config.enable_source_attribution = true) :
    ∀ x ∈ assembledChunks config results, attribOne x = x := by
  intro x hx
  have hx4 : x ∈ preAssembled config results :=
    (assembledChunks_sublist config results).mem hx
  rw [preAssembled, attribStep, if_pos hattr] at hx4
  obtain ⟨y, _, rfl⟩ := List.mem_map.mp hx4
  exact attribOne_attribOne y

/-- Running the first four steps of Context Assembly on the chunk list it
already produced changes nothing when chunk merging is disabled. -/
theorem preAssembled_self (config : RetrievalConfig)
    (results : List RetrievalResult)
    (hm : config.enable_chunk_merging = false) :
    preAssembled config (assembledChunks config results) =
      assembledChunks config results := by
  have hded : dedupStep (assembledChunks config results) =
      assembledChunks config results :=
    dedupGo_eq_self _ [] (by intro c _ h; simp at h)
      (pairwise_sig_assembledChunks config results hm)
  have hmerge : mergeStepIf config (assembledChunks config results) =
      assembledChunks config results := by
    rw [mergeStepIf, hm]; rfl
  have hsort : sortStep (assembledChunks config results) =
      assembledChunks config results :=
    List.Sorted.insertionSort_eq (sorted_assembledChunks config results)
  rw [preAssembled, hded, hmerge, hsort, attribStep]
  by_cases hattr : config.enable_source_attribution = true
  · rw [if_pos hattr]
    exact list_map_id_of_mem _ (attribOne_fixed_on_assembledChunks config results hattr)
  · rw [if_neg hattr]

/-- Three reranked chunks: two with consecutive `chunk_index` in source
`s1` but separated (in rank order) by a chunk of source `s2`. -/
def exampleIdemResults : List RetrievalResult :=
  [{ id := "x"
     text := "alpha text"
     metadata := { source_file := some "s1", chunk_index := some 4, token_count := some 3 }
     similarity := 1 },
   { id := "y"
     text := "beta text"
     metadata := { source_file := some "s2", chunk_index := some 0, token_count := some 3 }
     similarity := 1 },
   { id := "z"
     text := "gamma text"
     metadata := { source_file := some "s1", chunk_index := some 5, token_count := some 3 }
     similarity := 1 }]

set_option maxRecDepth 40000 in
/-- Counterexample to C7 as stated: with the default configuration (chunk
merging enabled), the first run merges nothing (the two `s1` chunks are not
neighbours in rank order) but its reordering makes them adjacent, so a
second run on the produced chunk list merges them and returns a different
result. -/
theorem assembly_not_idempotent :
    assemble_context defaultRetrievalConfig
        ((assemble_context defaultRetrievalConfig exampleIdemResults).chunks) ≠
      assemble_context defaultRetrievalConfig exampleIdemResults := by
  decide

/-- C7 (amended): Context Assembly is idempotent when chunk merging is
disabled, provided its output chunk list is non-empty (re-running on the
produced chunks removes nothing in deduplication and changes nothing in
reordering, attribution or budget trimming); with merging enabled the
reordering can make same-source chunks with consecutive indices adjacent,
and a second run merges them (see the counterexample). -/
theorem assembly_idempotent_without_merging :
    ∀ (config : RetrievalConfig) (results : List RetrievalResult),
      config.enable_chunk_merging = false →
      (assemble_context config results).chunks ≠ [] →
      assemble_context config ((assemble_context config results).chunks) =
        assemble_context config results := by
  intro config results hm hne
  by_cases hres : results.isEmpty
  · exact absurd (by simp [assemble_context, hres]) hne
  have hres' : results.isEmpty = false := Bool.eq_false_iff.mpr hres
  have hchunks : (assemble_context config results).chunks =
      assembledChunks config results := by
    simp [assemble_context, hres']
  rw [hchunks] at hne ⊢
  have hemp : (assembledChunks config results).isEmpty = false := by
    cases h : assembledChunks config results with
    | nil => exact absurd h hne
    | cons a t => rfl
  have hpre := preAssembled_self config results hm
  have hsum := sumTokens_assembledChunks_le config results
  have hnbig : ¬ sumTokens (preAssembled config (assembledChunks config results)) >
      config.max_context_tokens := by
    rw [hpre]; exact not_lt.mpr hsum
  have hch2 : assembledChunks config (assembledChunks config results) =
      assembledChunks config results := by
    rw [assembledChunks, if_neg hnbig, hpre]
  have htot2 : assembledTotal config (assembledChunks config results) =
      assembledTotal config results := by
    rw [assembledTotal, if_neg hnbig, hpre]
    exact (assembledTotal_eq_sum config results).symm
  simp only [assemble_context, hres', hemp, Bool.false_eq_true, if_false,
    AssembledContext.mk.injEq]
  exact ⟨by rw [hch2], by rw [hch2], htot2, by rw [hch2], by rw [hch2]⟩

/-- A single-chunk input for the idempotence witness. -/
def exampleNoMergeResults : List RetrievalResult :=
  [{ id := "w"
     text := "witness text"
     metadata := { source_file := some "s1", chunk_index := some 0, token_count := some 2 }
     similarity := 1 }]

set_option maxRecDepth 40000 in
/-- Witness for the amended C7 at a concrete input. -/
theorem assembly_idempotent_without_merging_witness :
    ({ defaultRetrievalConfig with enable_chunk_merging := false }.enable_chunk_merging = false)
    ∧ (assemble_context { defaultRetrievalConfig with enable_chunk_merging := false }
        exampleNoMergeResults).chunks ≠ []
    ∧ assemble_context { defaultRetrievalConfig with enable_chunk_merging := false }
        ((assemble_context { defaultRetrievalConfig with enable_chunk_merging := false }
          exampleNoMergeResults).chunks) =
      assemble_context { defaultRetrievalConfig with enable_chunk_merging := false }
        exampleNoMergeResults :=
  ⟨rfl, by decide,
    assembly_idempotent_without_merging
      { defaultRetrievalConfig with enable_chunk_merging := false }
      exampleNoMergeResults rfl (by decide)⟩

/-! ## The chunker — `MetadataAwareChunker` (`loaders/document_loader.py`)

The tokenizer (`tiktoken`) is an external collaborator: token lists are
abstract `List Nat` values, and `encode`/`decode` are parameters where
text-level functions need them. -/

/-- The `while start < len(tokens)` loop of
`MetadataAwareChunker.split_text_by_tokens`, at token level: emit the
window `tokens[start:start+chunk_size]`, advance `start` by
`chunk_size - overlap`, stop after the window whose successor start would
reach the end.  `fuel` bounds the iteration count (the caller passes
`toks.length`, which is enough whenever `overlap < chunk_size`, so the
fuel-exhaustion branch is unreachable there). -/
def slidingWindows (toks : List Nat) (chunk_size overlap : Nat) :
    Nat → Nat → List (List Nat)
  | 0, start => [(toks.drop start).take chunk_size]
  | fuel + 1, start =>
    if start + chunk_size - overlap < toks.length then
      (toks.drop start).take chunk_size ::
        slidingWindows toks chunk_size overlap fuel (start + chunk_size - overlap)
    else [(toks.drop start).take chunk_size]

/-- `split_text_by_tokens` at token level: a text of at most `chunk_size`
tokens is returned whole, otherwise the sliding-window loop runs. -/
def tokenSplit (toks : List Nat) (chunk_size overlap : Nat) : List (List Nat) :=
  if toks.length ≤ chunk_size then [toks]
  else slidingWindows toks chunk_size overlap toks.length 0

/-- `MetadataAwareChunker.split_text_by_tokens`, parameterized by the
tokenizer's `encode`/`decode`: blank text yields `[]`, short text is
returned verbatim (not re-decoded), long text is split into decoded
windows. -/
def split_text_by_tokens (enc : String → List Nat) (dec : List Nat → String)
    (text : String) (chunk_size overlap : Nat) : List String :=
  if pyStrip text = "" then []
  else
    let tokens := enc text
    if tokens.length ≤ chunk_size then [text]
    else (slidingWindows tokens chunk_size overlap tokens.length 0).map dec

/-- Concatenation of the windows with each non-first window's leading
`overlap` tokens removed: "the windows cover all tokens, ignoring overlap
duplication". -/
def joinOv (overlap : Nat) : List (List Nat) → List Nat
  | [] => []
  | w :: ws => w ++ (ws.map (fun x => x.drop overlap)).flatten

/-- The spec's overlap invariant for one consecutive pair: the last
`overlap` tokens of the first window equal the first `overlap` tokens of
the second. -/
def overlapRel (overlap : Nat) (a b : List Nat) : Prop :=
  a.drop (a.length - overlap) = b.take overlap

instance (overlap : Nat) : DecidableRel (overlapRel overlap) := fun a b =>
  inferInstanceAs (Decidable (a.drop (a.length - overlap) = b.take overlap))

theorem slidingWindows_head (toks : List Nat) (cs ov : Nat) :
    ∀ (fuel start : Nat), ∃ tail,
      slidingWindows toks cs ov fuel start = (toks.drop start).take cs :: tail := by
  intro fuel start
  cases fuel with
  | zero => exact ⟨[], rfl⟩
  | succ n =>
    by_cases h : start + cs - ov < toks.length
    · exact ⟨slidingWindows toks cs ov n (start + cs - ov), by rw [slidingWindows, if_pos h]⟩
    · exact ⟨[], by rw [slidingWindows, if_neg h]⟩

theorem slidingWindows_joinOv (toks : List Nat) (cs ov : Nat) (hov : ov < cs) :
    ∀ (fuel start : Nat), start < toks.length → toks.length ≤ start + fuel →
      joinOv ov (slidingWindows toks cs ov fuel start) = toks.drop start := by
  intro fuel
  induction fuel with
  | zero => intro start h1 h2; omega
  | succ n ih =>
    intro start h1 h2
    by_cases hnext : start + cs - ov < toks.length
    · obtain ⟨tail, htail⟩ := slidingWindows_head toks cs ov n (start + cs - ov)
      have hih := ih (start + cs - ov) hnext (by omega)
      rw [htail] at hih
      simp only [joinOv] at hih
      rw [slidingWindows, if_pos hnext, htail]
      simp only [joinOv, List.map_cons, List.flatten_cons]
      have hJ : (List.map (fun x => x.drop ov) tail).flatten =
          (toks.drop (start + cs - ov)).drop cs := by
        have h2' := hih.trans (List.take_append_drop cs (toks.drop (start + cs - ov))).symm
        exact List.append_cancel_left h2'
      have e1 : ((toks.drop (start + cs - ov)).take cs).drop ov
          = (toks.drop (start + cs)).take (cs - ov) := by
        rw [List.drop_take, List.drop_drop]
        congr 2
        omega
      have e2 : (toks.drop (start + cs - ov)).drop cs
          = (toks.drop (start + cs)).drop (cs - ov) := by
        rw [List.drop_drop, List.drop_drop]
        congr 1
        omega
      rw [hJ, e1, e2, List.take_append_drop,
        show toks.drop (start + cs) = (toks.drop start).drop cs from
          (List.drop_drop cs start toks).symm,
        List.take_append_drop]
    · rw [slidingWindows, if_neg hnext]
      simp only [joinOv, List.map_nil, List.flatten_nil, List.append_nil]
      apply List.take_of_length_le
      rw [List.length_drop]
      omega

theorem slidingWindows_chain (toks : List Nat) (cs ov : Nat) (hov : ov < cs) :
    ∀ (fuel start : Nat),
      List.Chain' (fun a b => a.length = cs → overlapRel ov a b)
        (slidingWindows toks cs ov fuel start) := by
  intro fuel
  induction fuel with
  | zero => intro start; exact List.chain'_singleton _
  | succ n ih =>
    intro start
    by_cases hnext : start + cs - ov < toks.length
    · obtain ⟨tail, htail⟩ := slidingWindows_head toks cs ov n (start + cs - ov)
      rw [slidingWindows, if_pos hnext, htail]
      refine List.chain'_cons.mpr ⟨?_, htail ▸ ih (start + cs - ov)⟩
      intro hw
      rw [overlapRel, hw, List.drop_take, List.drop_drop, List.take_take]
      have e1 : cs - (cs - ov) = ov := by omega
      have e2 : start + (cs - ov) = start + cs - ov := by omega
      have e3 : min ov cs = ov := min_eq_left (le_of_lt hov)
      rw [e1, e2, e3]
    · rw [slidingWindows, if_neg hnext]
      exact List.chain'_singleton _

/-- C6 (amended): when `overlap < chunk_size`, the windows of the sliding
split cover all tokens (concatenating them with each later window's first
`overlap` tokens removed reconstructs the paragraph's token list), and the
overlap invariant — last `overlap` tokens of window *i* = first `overlap`
tokens of window *i+1* — holds for every consecutive pair whose first
window is full (exactly `chunk_size` tokens long); it can fail when window
*i* is a truncated window (see the counterexample). -/
theorem token_split_coverage_and_overlap :
    ∀ (toks : List Nat) (chunk_size overlap : Nat), overlap < chunk_size →
      joinOv overlap (tokenSplit toks chunk_size overlap) = toks
      ∧ List.Chain' (fun a b => a.length = chunk_size → overlapRel overlap a b)
          (tokenSplit toks chunk_size overlap) := by
  intro toks cs ov hov
  by_cases hshort : toks.length ≤ cs
  · constructor
    · rw [tokenSplit, if_pos hshort]
      simp [joinOv]
    · rw [tokenSplit, if_pos hshort]
      exact List.chain'_singleton _
  · constructor
    · rw [tokenSplit, if_neg hshort]
      simpa using slidingWindows_joinOv toks cs ov hov toks.length 0 (by omega) (by omega)
    · rw [tokenSplit, if_neg hshort]
      exact slidingWindows_chain toks cs ov hov toks.length 0

/-- Witness for the amended C6 at a concrete input. -/
theorem token_split_coverage_and_overlap_witness :
    (2 < 5)
    ∧ joinOv 2 (tokenSplit [0, 1, 2, 3, 4, 5, 6] 5 2) = [0, 1, 2, 3, 4, 5, 6]
    ∧ List.Chain' (fun a b => a.length = 5 → overlapRel 2 a b)
        (tokenSplit [0, 1, 2, 3, 4, 5, 6] 5 2) :=
  ⟨by norm_num,
    token_split_coverage_and_overlap [0, 1, 2, 3, 4, 5, 6] 5 2 (by norm_num)⟩

/-- Counterexample to C6 as stated: a 7-token paragraph split with
`chunk_size = 5`, `overlap = 2` produces the windows
`[0..4], [3..6], [6]`; the middle window is truncated (the slice
`tokens[3:8]` is clipped at the end of the list) yet still spawns a
successor, and the last 2 tokens of `[3,4,5,6]` are `[5,6]` while the
first 2 tokens of `[6]` are just `[6]`, so the claimed unconditional
overlap invariant fails. -/
theorem token_split_overlap_invariant_fails :
    5 < ([0, 1, 2, 3, 4, 5, 6] : List Nat).length
    ∧ tokenSplit [0, 1, 2, 3, 4, 5, 6] 5 2 = [[0, 1, 2, 3, 4], [3, 4, 5, 6], [6]]
    ∧ ¬ List.Chain' (overlapRel 2) (tokenSplit [0, 1, 2, 3, 4, 5, 6] 5 2) := by
  refine ⟨by norm_num, by decide, ?_⟩
  intro h
  rw [show tokenSplit [0, 1, 2, 3, 4, 5, 6] 5 2 = [[0, 1, 2, 3, 4], [3, 4, 5, 6], [6]]
    from by decide] at h
  exact absurd (List.chain'_cons.mp (List.chain'_cons.mp h).2).1 (by decide)

/-! ## Heading detection and section extraction
(`MetadataAwareChunker.is_heading` / `extract_section_number`)

The source regexes are `^\d+\.(\d+\.)*\s+.+` (heading check) and
`^(\d+\.(\d+\.)*)` (section extraction): every numeric component must be
followed by a dot.  They are embedded as structurally recursive parsers;
because each `\d+` is delimited by a following `.` (not a digit) and the
`(\d+\.)*` star can only stop where no further digit-dot group starts,
backtracking never changes the outcome, so the greedy parsers below have
exactly the regex semantics (proved against declarative decompositions in
the C5 theorem). -/

/-- Consume one `\d+\.` group (the maximal leading digit run followed by a
dot), returning the consumed characters and the remainder. -/
def numDotGroup (cs : List Char) : Option (List Char × List Char) :=
  let ds := cs.takeWhile (fun c => c.isDigit)
  let rest := cs.dropWhile (fun c => c.isDigit)
  if ds.isEmpty then none
  else
    match rest with
    | '.' :: rest2 => some (ds ++ ['.'], rest2)
    | _ => none

/-- Consume `(\d+\.)*` greedily (`fuel` bounds the iteration count; each
group consumes at least two characters, so `cs.length` is always enough). -/
def numDotGroupsGo : Nat → List Char → List Char × List Char
  | 0, cs => ([], cs)
  | fuel + 1, cs =>
    match numDotGroup cs with
    | some (g, rest) =>
      let p := numDotGroupsGo fuel rest
      (g ++ p.1, p.2)
    | none => ([], cs)

/-- The `\s+.+` tail of the heading regex: at least one whitespace
character, then (after backtracking inside the whitespace run) at least one
character other than `'\n'` (`.` does not match a newline). -/
def tailWsMatch (cs : List Char) : Bool :=
  match cs.span (fun c => c.isWhitespace) with
  | (ws, tl) => !ws.isEmpty && (!tl.isEmpty || (ws.drop 1).any (fun c => c ≠ '\n'))

/-- `re.match(r'^\d+\.(\d+\.)*\s+.+', text)` as a Boolean. -/
def matchNumberedHeading (cs : List Char) : Bool :=
  let p := numDotGroupsGo cs.length cs
  !p.1.isEmpty && tailWsMatch p.2

/-- Python's `str.isupper()`: at least one cased character and no cased
character in lower case (cased = ASCII letter in this model). -/
def pyIsUpper (cs : List Char) : Bool :=
  cs.any (fun c => c.isAlpha) && cs.all (fun c => !c.isAlpha || c.isUpper)

/-- `text.endswith(('.', '!', '?'))`. -/
def endsWithPunct (cs : List Char) : Bool :=
  match cs.getLast? with
  | some c => c = '.' || c = '!' || c = '?'
  | none => false

/-- `MetadataAwareChunker.is_heading`: numbered-outline pattern, or fully
upper-case and longer than 3 characters, or shorter than 100 characters
without terminal sentence punctuation — all on the stripped text. -/
def is_heading (s : String) : Bool :=
  let text := pyStrip s
  matchNumberedHeading text.data
  || (pyIsUpper text.data && decide (3 < text.length))
  || (decide (text.length < 100) && !endsWithPunct text.data)

/-- `str.rstrip('.')`: remove all trailing dots. -/
def stripDotsRight (cs : List Char) : List Char :=
  (cs.reverse.dropWhile (fun c => c = '.')).reverse

/-- `MetadataAwareChunker.extract_section_number`:
`re.match(r'^(\d+\.(\d+\.)*)', text.strip())`, group 1 with trailing dots
stripped, else `"Unknown"`. -/
def extract_section_number (s : String) : String :=
  let cs := (pyStrip s).data
  match numDotGroup cs with
  | none => "Unknown"
  | some (g, rest) =>
    let p := numDotGroupsGo rest.length rest
    String.mk (stripDotsRight (g ++ p.1))

/-! ### The chunking loop (`MetadataAwareChunker.chunk_document`) -/

/-- `ChunkingConfig` from `config/settings.py`. -/
structure ChunkingConfig where
  chunk_size : Nat
  chunk_overlap : Nat
  preserve_metadata : Bool
  include_section_headers : Bool
  include_page_numbers : Bool
  deriving Repr, DecidableEq

/-- The default `ChunkingConfig()` values. -/
def defaultChunkingConfig : ChunkingConfig :=
  { chunk_size := 800, chunk_overlap := 150, preserve_metadata := true
    include_section_headers := true, include_page_numbers := true }

/-- One element of the paragraph-dictionary list passed to
`chunk_document` (`'text'` plus the optional `'page_number'` key). -/
structure Paragraph where
  text : String
  page_number : Option Int := none
  deriving Repr, DecidableEq

/-- The metadata attached to a fresh `DocumentChunk` (all keys present
except the optional page number); `created_at` carries the timestamp
string. -/
structure ChunkMetadata where
  source_file : String
  sec : String
  heading : String
  chunk_index : Nat
  created_at : String
  token_count : Nat
  page_number : Option Int := none
  deriving Repr, DecidableEq

/-- `DocumentChunk` dataclass from `loaders/document_loader.py`. -/
structure DocumentChunk where
  text : String
  metadata : ChunkMetadata
  deriving Repr, DecidableEq

/-- Build the chunks of one paragraph: each split text gets the running
`chunk_index` (`len(chunks)` in the source), the current section/heading
and its own token count. -/
def chunkTexts (enc : String → List Nat) (source_file now sec heading : String)
    (page_number : Option Int) : List String → Nat → List DocumentChunk
  | [], _ => []
  | t :: ts, k =>
    ⟨t, ⟨source_file, sec, heading, k, now, (enc t).length, page_number⟩⟩ ::
      chunkTexts enc source_file now sec heading page_number ts (k + 1)

/-- The paragraph loop of `chunk_document`, carrying `current_section`,
`current_heading` and the running chunk count. -/
def chunkDocGo (enc : String → List Nat) (dec : List Nat → String)
    (config : ChunkingConfig) (source_file now : String) :
    String → String → Nat → List Paragraph → List DocumentChunk
  | _, _, _, [] => []
  | current_section, current_heading, n, para :: rest =>
    if pyStrip para.text = "" then
      chunkDocGo enc dec config source_file now current_section current_heading n rest
    else
      let sec' := if is_heading para.text then extract_section_number para.text
        else current_section
      let heading' := if is_heading para.text then pyStrip para.text
        else current_heading
      let texts := split_text_by_tokens enc dec para.text config.chunk_size
        config.chunk_overlap
      chunkTexts enc source_file now
          (if config.preserve_metadata then sec' else "Unknown")
          (if config.include_section_headers then heading' else "Unknown")
          (if config.include_page_numbers then para.page_number else none) texts n
        ++ chunkDocGo enc dec config source_file now sec' heading'
            (n + texts.length) rest

/-- `MetadataAwareChunker.chunk_document`. -/
def chunk_document (enc : String → List Nat) (dec : List Nat → String)
    (config : ChunkingConfig) (paragraphs : List Paragraph)
    (source_file now : String) : List DocumentChunk :=
  chunkDocGo enc dec config source_file now "Unknown" "Unknown" 0 paragraphs

/-! ### The claim-side section pattern -/

/-- Modelled from the claim's words: the groups of the pattern
`\d+(\.\d+)*` after the first digit run — a dot *followed by* digits,
repeated. -/
def claimGroupsGo : Nat → List Char → List Char
  | 0, _ => []
  | fuel + 1, cs =>
    match cs with
    | '.' :: cs2 =>
      (match cs2.span (fun c => c.isDigit) with
       | (ds, rest) =>
         if ds.isEmpty then [] else '.' :: (ds ++ claimGroupsGo fuel rest))
    | _ => []

/-- Modelled from the claim's words: the paragraph's full leading numeric
prefix per the claimed pattern `\d+(\.\d+)*` (so `"1.1"` for
`"1.1 Overview"`), else `"Unknown"`. -/
def claimLeadingNumericPrefix (s : String) : String :=
  let cs := (pyStrip s).data
  match cs.span (fun c => c.isDigit) with
  | (ds, rest) =>
    if ds.isEmpty then "Unknown"
    else String.mk (ds ++ claimGroupsGo rest.length rest)

/-- Counterexample to C5 as stated: `"1.1 Overview"` is classified as a
heading (via the short-no-punctuation rule), and the claim says
`current_section` becomes its full leading numeric prefix `"1.1"`; but the
code's regex `^(\d+\.(\d+\.)*)` only matches dot-terminated groups, so
`extract_section_number` matches just `"1."` and returns `"1"`. -/
theorem section_number_not_full_numeric_prefix :
    is_heading "1.1 Overview" = true
    ∧ claimLeadingNumericPrefix "1.1 Overview" = "1.1"
    ∧ extract_section_number "1.1 Overview" = "1"
    ∧ extract_section_number "1.1 Overview" ≠
        claimLeadingNumericPrefix "1.1 Overview" := by
  refine ⟨by decide, by decide, by decide, by decide⟩

/-! ### Declarative regex semantics

The regexes are specified declaratively (as existence of a decomposition of
the character list, the standard semantics of a regex match) and the
parsers above are proved equivalent.  Backtracking is covered: a
`(\d+\.)*` iteration always starts with a digit while the `\s+` that
follows needs whitespace, so a shorter parse can never succeed where the
greedy one fails. -/

/-- One `\d+\.` group of the source pattern. -/
def ValidGroup (g : List Char) : Prop :=
  ∃ ds, ds ≠ [] ∧ (∀ c ∈ ds, c.isDigit = true) ∧ g = ds ++ ['.']

/-- No `\d+\.` group starts here (the star must stop). -/
def NoGroupStart (cs : List Char) : Prop :=
  ∀ ds r, ds ≠ [] → (∀ c ∈ ds, c.isDigit = true) → cs ≠ ds ++ '.' :: r

/-- Declarative `\s+.+` match: some non-empty whitespace prefix followed by
at least one character other than a newline. -/
def TailWsDecl (cs : List Char) : Prop :=
  ∃ ws c t, cs = ws ++ c :: t ∧ ws ≠ []
    ∧ (∀ w ∈ ws, w.isWhitespace = true) ∧ c ≠ '\n'

/-- Declarative `^\d+\.(\d+\.)*\s+.+` match. -/
def NumberedHeadingDecl (cs : List Char) : Prop :=
  ∃ gs rest, gs ≠ [] ∧ (∀ g ∈ gs, ValidGroup g)
    ∧ cs = gs.flatten ++ rest ∧ TailWsDecl rest

theorem takeWhile_append_of_all {p : Char → Bool} :
    ∀ (l r : List Char), (∀ c ∈ l, p c = true) →
      (l ++ r).takeWhile p = l ++ r.takeWhile p := by
  intro l
  induction l with
  | nil => intro r _; rfl
  | cons a t ih =>
    intro r h
    rw [List.cons_append, List.takeWhile_cons, if_pos (h a (List.mem_cons_self _ _)),
      ih r fun c hc => h c (List.mem_cons_of_mem _ hc), List.cons_append]

theorem dropWhile_append_of_all {p : Char → Bool} :
    ∀ (l r : List Char), (∀ c ∈ l, p c = true) →
      (l ++ r).dropWhile p = r.dropWhile p := by
  intro l
  induction l with
  | nil => intro r _; rfl
  | cons a t ih =>
    intro r h
    rw [List.cons_append, List.dropWhile_cons, if_pos (h a (List.mem_cons_self _ _)),
      ih r fun c hc => h c (List.mem_cons_of_mem _ hc)]

theorem dropWhile_head_false {p : Char → Bool} :
    ∀ (l : List Char) (c : Char) (t : List Char),
      l.dropWhile p = c :: t → p c = false := by
  intro l
  induction l with
  | nil => intro c t h; simp [List.dropWhile] at h
  | cons a l' ih =>
    intro c t h
    rw [List.dropWhile_cons] at h
    by_cases hpa : p a = true
    · rw [if_pos hpa] at h; exact ih c t h
    · rw [if_neg hpa] at h
      cases h
      exact Bool.eq_false_iff.mpr hpa

theorem digit_not_whitespace (c : Char) (h : c.isDigit = true) :
    c.isWhitespace = false := by
  by_contra hby
  have hw : c.isWhitespace = true := Bool.not_eq_false _ ▸ hby
  have : ((c = ' ' ∨ c = '\t') ∨ c = '\r') ∨ c = '\n' := by
    simpa [Char.isWhitespace] using hw
  rcases this with ((rfl | rfl) | rfl) | rfl <;> simp [Char.isDigit] at h

theorem numDotGroup_build (ds r : List Char) (hne : ds ≠ [])
    (hds : ∀ c ∈ ds, c.isDigit = true) :
    numDotGroup (ds ++ '.' :: r) = some (ds ++ ['.'], r) := by
  have h1 : (ds ++ '.' :: r).takeWhile (fun c => c.isDigit) = ds := by
    rw [takeWhile_append_of_all ds _ hds, List.takeWhile_cons, if_neg (by decide),
      List.append_nil]
  have h2 : (ds ++ '.' :: r).dropWhile (fun c => c.isDigit) = '.' :: r := by
    rw [dropWhile_append_of_all ds _ hds, List.dropWhile_cons, if_neg (by decide)]
  simp only [numDotGroup, h1, h2]
  simp [List.isEmpty_iff, hne]

theorem numDotGroup_some (cs g rest : List Char)
    (h : numDotGroup cs = some (g, rest)) :
    ∃ ds, ds ≠ [] ∧ (∀ c ∈ ds, c.isDigit = true)
      ∧ g = ds ++ ['.'] ∧ cs = ds ++ '.' :: rest := by
  simp only [numDotGroup] at h
  split at h
  · exact absurd h (by simp)
  · split at h
    · next heq =>
      simp only [Option.some.injEq, Prod.mk.injEq] at h
      obtain ⟨hg, hrest⟩ := h
      refine ⟨cs.takeWhile (fun c => c.isDigit), ?_, ?_, hg.symm, ?_⟩
      · intro hnil
        simp [hnil] at *
      · intro x hx
        exact List.mem_takeWhile_imp hx
      · subst hrest
        conv_lhs => rw [← List.takeWhile_append_dropWhile (fun c => c.isDigit) cs]
        rw [heq]
    · exact absurd h (by simp)

theorem numDotGroup_none_of_noGroupStart {cs : List Char}
    (h : NoGroupStart cs) : numDotGroup cs = none := by
  cases hg : numDotGroup cs with
  | none => rfl
  | some gr =>
    obtain ⟨ds, hne, hds, _, hcseq⟩ := numDotGroup_some cs gr.1 gr.2 (by rw [hg])
    exact absurd hcseq (h ds gr.2 hne hds)

theorem noGroupStart_of_numDotGroup_none {cs : List Char}
    (h : numDotGroup cs = none) : NoGroupStart cs := by
  intro ds r hne hds heq
  rw [heq, numDotGroup_build ds r hne hds] at h
  exact Option.noConfusion h

theorem noGroupStart_nil : NoGroupStart [] := by
  intro ds r hne _ heq
  cases ds with
  | nil => exact hne rfl
  | cons d dt => exact List.noConfusion heq

/-- Soundness of the greedy `(\d+\.)*` parser: it consumes a run of valid
groups and stops where no further group starts. -/
theorem numDotGroupsGo_sound :
    ∀ (fuel : Nat) (cs : List Char), cs.length ≤ fuel →
      ∃ gs : List (List Char), (∀ g ∈ gs, ValidGroup g)
        ∧ (numDotGroupsGo fuel cs).1 = gs.flatten
        ∧ cs = gs.flatten ++ (numDotGroupsGo fuel cs).2
        ∧ NoGroupStart (numDotGroupsGo fuel cs).2 := by
  intro fuel
  induction fuel with
  | zero =>
    intro cs hlen
    have hnil : cs = [] := List.length_eq_zero.mp (Nat.le_zero.mp hlen)
    subst hnil
    exact ⟨[], by simp, rfl, rfl, noGroupStart_nil⟩
  | succ n ih =>
    intro cs hlen
    cases hg : numDotGroup cs with
    | none =>
      refine ⟨[], by simp, ?_, ?_, ?_⟩ <;>
        simp [numDotGroupsGo, hg, noGroupStart_of_numDotGroup_none hg]
    | some gr =>
      obtain ⟨g, rest⟩ := gr
      obtain ⟨ds, hne, hds, hgeq, hcseq⟩ := numDotGroup_some cs g rest hg
      have hrest : rest.length ≤ n := by
        rw [hcseq] at hlen
        simp only [List.length_append, List.length_cons] at hlen
        cases ds with
        | nil => exact absurd rfl hne
        | cons d dt => simp at hlen; omega
      obtain ⟨gs', hvalid', hpre', hsplit', hng'⟩ := ih rest hrest
      refine ⟨g :: gs', ?_, ?_, ?_, ?_⟩
      · intro x hx
        rcases List.mem_cons.mp hx with rfl | hx'
        · exact ⟨ds, hne, hds, hgeq⟩
        · exact hvalid' x hx'
      · simp [numDotGroupsGo, hg, hpre']
      · simp only [numDotGroupsGo, hg, List.flatten_cons, List.append_assoc]
        rw [hcseq, hgeq, ← hsplit']
        simp
      · simpa [numDotGroupsGo, hg] using hng'

/-- Completeness/determinism of the greedy `(\d+\.)*` parser: on a valid
run of groups followed by a non-group remainder it consumes exactly the
run. -/
theorem numDotGroupsGo_complete :
    ∀ (gs : List (List Char)) (rest : List Char),
      (∀ g ∈ gs, ValidGroup g) → NoGroupStart rest →
      ∀ fuel, (gs.flatten ++ rest).length ≤ fuel →
        numDotGroupsGo fuel (gs.flatten ++ rest) = (gs.flatten, rest) := by
  intro gs
  induction gs with
  | nil =>
    intro rest _ hng fuel _
    simp only [List.flatten_nil, List.nil_append]
    cases fuel with
    | zero => rfl
    | succ n => simp [numDotGroupsGo, numDotGroup_none_of_noGroupStart hng]
  | cons g gs' ih =>
    intro rest hvalid hng fuel hlen
    obtain ⟨ds, hne, hds, hgeq⟩ := hvalid g (List.mem_cons_self _ _)
    have hflat : (g :: gs').flatten ++ rest = ds ++ '.' :: (gs'.flatten ++ rest) := by
      rw [hgeq]; simp
    cases fuel with
    | zero =>
      rw [hflat] at hlen
      simp only [List.length_append, List.length_cons] at hlen
      omega
    | succ n =>
      have hrec := ih rest (fun x hx => hvalid x (List.mem_cons_of_mem _ hx)) hng n
        (by rw [hflat] at hlen
            simp only [List.length_append, List.length_cons] at hlen
            cases ds with
            | nil => exact absurd rfl hne
            | cons d dt =>
              simp only [List.length_append, List.length_cons] at hlen ⊢
              omega)
      rw [hflat]
      simp only [numDotGroupsGo, numDotGroup_build ds (gs'.flatten ++ rest) hne hds, hrec]
      rw [hgeq]
      simp

theorem tailWsMatch_iff (cs : List Char) :
    tailWsMatch cs = true ↔ TailWsDecl cs := by
  constructor
  · intro h
    rw [tailWsMatch, List.span_eq_take_drop] at h
    simp only [Bool.and_eq_true, Bool.or_eq_true, Bool.not_eq_true',
      List.any_eq_true, decide_eq_true_eq] at h
    obtain ⟨hws, hor⟩ := h
    have hwsne : cs.takeWhile (fun c => c.isWhitespace) ≠ [] := by
      intro hnil; rw [hnil] at hws; exact Bool.noConfusion hws
    rcases hor with htl | ⟨c, hc, hcne⟩
    · cases htl' : cs.dropWhile (fun c => c.isWhitespace) with
      | nil => rw [htl'] at htl; simp at htl
      | cons c t =>
        refine ⟨cs.takeWhile (fun c => c.isWhitespace), c, t, ?_, hwsne, ?_, ?_⟩
        · conv_lhs => rw [← List.takeWhile_append_dropWhile (fun c => c.isWhitespace) cs]
          rw [htl']
        · intro w hw; exact List.mem_takeWhile_imp hw
        · have hcf := dropWhile_head_false _ c t htl'
          intro hceq
          rw [hceq] at hcf
          exact Bool.noConfusion hcf
    · cases hws' : cs.takeWhile (fun c => c.isWhitespace) with
      | nil => exact absurd hws' hwsne
      | cons w0 wrest =>
        rw [hws', List.drop_one, List.tail_cons] at hc
        obtain ⟨a, b, rfl⟩ := List.append_of_mem hc
        refine ⟨w0 :: a, c, b ++ cs.dropWhile (fun c => c.isWhitespace), ?_,
          List.cons_ne_nil _ _, ?_, hcne⟩
        · conv_lhs => rw [← List.takeWhile_append_dropWhile (fun c => c.isWhitespace) cs]
          rw [hws']
          simp
        · intro w hw
          have : w ∈ cs.takeWhile (fun c => c.isWhitespace) := by
            rw [hws']
            rcases List.mem_cons.mp hw with rfl | hw'
            · exact List.mem_cons_self _ _
            · exact List.mem_cons_of_mem _ (List.mem_append_left _ hw')
          exact List.mem_takeWhile_imp this
  · rintro ⟨ws, c, t, rfl, hne, hws, hc⟩
    rw [tailWsMatch, List.span_eq_take_drop]
    simp only [Bool.and_eq_true, Bool.or_eq_true, Bool.not_eq_true',
      List.any_eq_true, decide_eq_true_eq]
    rw [takeWhile_append_of_all ws (c :: t) hws, dropWhile_append_of_all ws (c :: t) hws,
      List.takeWhile_cons, List.dropWhile_cons]
    by_cases hcw : c.isWhitespace = true
    · rw [if_pos hcw, if_pos hcw]
      constructor
      · simp [List.isEmpty_iff]
      · right
        cases ws with
        | nil => exact absurd rfl hne
        | cons w0 wrest =>
          refine ⟨c, ?_, hc⟩
          simp
    · rw [if_neg hcw, if_neg hcw]
      constructor
      · simp [List.isEmpty_iff, hne]
      · left
        simp

theorem noGroupStart_of_tailWsDecl {cs : List Char} (h : TailWsDecl cs) :
    NoGroupStart cs := by
  obtain ⟨ws, c, t, rfl, hne, hws, _⟩ := h
  intro ds r hdne hds heq
  cases ws with
  | nil => exact absurd rfl hne
  | cons w0 ws1 =>
    cases ds with
    | nil => exact absurd rfl hdne
    | cons d0 ds1 =>
      rw [List.cons_append, List.cons_append, List.cons.injEq] at heq
      have hwd : w0.isWhitespace = true := hws w0 (List.mem_cons_self _ _)
      have hdd : d0.isDigit = true := hds d0 (List.mem_cons_self _ _)
      rw [heq.1] at hwd
      rw [digit_not_whitespace d0 hdd] at hwd
      exact Bool.noConfusion hwd

theorem matchNumberedHeading_iff (cs : List Char) :
    matchNumberedHeading cs = true ↔ NumberedHeadingDecl cs := by
  constructor
  · intro h
    rw [matchNumberedHeading] at h
    simp only [Bool.and_eq_true, Bool.not_eq_true', List.isEmpty_iff] at h
    obtain ⟨hpre, htail⟩ := h
    obtain ⟨gs, hvalid, hflat, hsplit, _⟩ :=
      numDotGroupsGo_sound cs.length cs (le_refl _)
    refine ⟨gs, (numDotGroupsGo cs.length cs).2, ?_, hvalid, hsplit, ?_⟩
    · intro hnil
      rw [hnil, List.flatten_nil] at hflat
      rw [hflat] at hpre
      simp at hpre
    · exact (tailWsMatch_iff _).mp htail
  · rintro ⟨gs, rest, hgs, hvalid, rfl, htail⟩
    have hng : NoGroupStart rest := noGroupStart_of_tailWsDecl htail
    rw [matchNumberedHeading]
    rw [numDotGroupsGo_complete gs rest hvalid hng _ (le_refl _)]
    simp only [Bool.and_eq_true, Bool.not_eq_true', List.isEmpty_iff]
    constructor
    · cases gs with
      | nil => exact absurd rfl hgs
      | cons g gs' =>
        obtain ⟨ds, hdne, _, hgeq⟩ := hvalid g (List.mem_cons_self _ _)
        rw [List.flatten_cons, hgeq]
        cases ds with
        | nil => exact absurd rfl hdne
        | cons d dt => simp
    · exact (tailWsMatch_iff _).mpr htail

theorem extract_section_unknown (s : String)
    (h : NoGroupStart (pyStrip s).data) :
    extract_section_number s = "Unknown" := by
  simp only [extract_section_number, numDotGroup_none_of_noGroupStart h]

theorem extract_section_groups (s : String) (gs : List (List Char))
    (rest : List Char) (hgs : gs ≠ []) (hvalid : ∀ g ∈ gs, ValidGroup g)
    (hng : NoGroupStart rest) (heq : (pyStrip s).data = gs.flatten ++ rest) :
    extract_section_number s = String.mk (stripDotsRight gs.flatten) := by
  cases gs with
  | nil => exact absurd rfl hgs
  | cons g gs' =>
    obtain ⟨ds, hdne, hds, hgeq⟩ := hvalid g (List.mem_cons_self _ _)
    have hflat : (g :: gs').flatten ++ rest = ds ++ '.' :: (gs'.flatten ++ rest) := by
      rw [List.flatten_cons, hgeq]; simp
    have hbuild := numDotGroup_build ds (gs'.flatten ++ rest) hdne hds
    have hcomp := numDotGroupsGo_complete gs' rest
      (fun x hx => hvalid x (List.mem_cons_of_mem _ hx)) hng
      (gs'.flatten ++ rest).length (le_refl _)
    simp only [extract_section_number, heq, hflat, hbuild, hcomp]
    rw [List.flatten_cons, hgeq]

theorem chunkTexts_texts (enc : String → List Nat)
    (sf now sec heading : String) (pn : Option Int) :
    ∀ (ts : List String) (k : Nat),
      (chunkTexts enc sf now sec heading pn ts k).map (fun c => c.text) = ts := by
  intro ts
  induction ts with
  | nil => intro k; rfl
  | cons t ts' ih => intro k; simp [chunkTexts, ih]

theorem chunkDocGo_texts (enc : String → List Nat) (dec : List Nat → String)
    (config : ChunkingConfig) (sf now : String) :
    ∀ (paras : List Paragraph) (sec heading : String) (n : Nat),
      (chunkDocGo enc dec config sf now sec heading n paras).map (fun c => c.text)
        = (paras.map fun p => split_text_by_tokens enc dec p.text
            config.chunk_size config.chunk_overlap).flatten := by
  intro paras
  induction paras with
  | nil => intro sec heading n; rfl
  | cons p ps ih =>
    intro sec heading n
    by_cases hblank : pyStrip p.text = ""
    · rw [List.map_cons, List.flatten_cons,
        show split_text_by_tokens enc dec p.text config.chunk_size
          config.chunk_overlap = [] from by rw [split_text_by_tokens, if_pos hblank]]
      simp only [chunkDocGo, if_pos hblank, ih, List.nil_append]
    · simp only [chunkDocGo, if_neg hblank]
      rw [List.map_append, chunkTexts_texts, ih, List.map_cons, List.flatten_cons]

/-- C5 (amended): a paragraph is classified as a heading iff its stripped
text matches `^\d+\.(\d+\.)*\s+.+` — every numeric component must be
followed by a dot, so `"1. Intro"` matches but the bare `"1.1 Overview"`
shape only qualifies through the other rules — or is fully upper-case and
longer than 3 characters, or is shorter than 100 characters without
terminal sentence punctuation; `current_section` becomes the leading run of
dot-terminated numeric groups with the trailing dot stripped (`"1"` for
`"1.1 Overview"`), or `"Unknown"` when the text does not start with
`\d+\.`; and a heading paragraph is chunked like any other paragraph (the
emitted chunk texts of a document are exactly the per-paragraph splits). -/
theorem heading_and_section_semantics :
    (∀ s : String, is_heading s = true ↔
      (NumberedHeadingDecl (pyStrip s).data
        ∨ ((∃ c ∈ (pyStrip s).data, c.isAlpha = true)
            ∧ (∀ c ∈ (pyStrip s).data, c.isAlpha = true → c.isUpper = true)
            ∧ 3 < (pyStrip s).length)
        ∨ ((pyStrip s).length < 100
            ∧ ¬((pyStrip s).data.getLast? = some '.'
                ∨ (pyStrip s).data.getLast? = some '!'
                ∨ (pyStrip s).data.getLast? = some '?'))))
    ∧ (∀ s : String, NoGroupStart (pyStrip s).data →
        extract_section_number s = "Unknown")
    ∧ (∀ (s : String) (gs : List (List Char)) (rest : List Char),
        gs ≠ [] → (∀ g ∈ gs, ValidGroup g) → NoGroupStart rest →
        (pyStrip s).data = gs.flatten ++ rest →
        extract_section_number s = String.mk (stripDotsRight gs.flatten))
    ∧ (∀ (enc : String → List Nat) (dec : List Nat → String)
        (config : ChunkingConfig) (paragraphs : List Paragraph) (sf now : String),
        (chunk_document enc dec config paragraphs sf now).map (fun c => c.text)
          = (paragraphs.map fun p => split_text_by_tokens enc dec p.text
              config.chunk_size config.chunk_overlap).flatten) := by
  refine ⟨?_, extract_section_unknown, extract_section_groups, ?_⟩
  · intro s
    rw [is_heading]
    simp only [Bool.or_eq_true, Bool.and_eq_true, decide_eq_true_eq]
    constructor
    · rintro ((hnum | ⟨hupper, hlen⟩) | ⟨hlen, hpunct⟩)
      · exact Or.inl ((matchNumberedHeading_iff _).mp hnum)
      · refine Or.inr (Or.inl ⟨?_, ?_, hlen⟩)
        · simpa [pyIsUpper, List.any_eq_true] using
            (Bool.and_eq_true _ _).mp hupper |>.1
        · have h2 := (Bool.and_eq_true _ _).mp hupper |>.2
          simp only [List.all_eq_true, Bool.or_eq_true, Bool.not_eq_true'] at h2
          intro c hc hca
          rcases h2 c hc with hf | ht
          · rw [hca] at hf; exact Bool.noConfusion hf
          · exact ht
      · refine Or.inr (Or.inr ⟨hlen, ?_⟩)
        simp only [Bool.not_eq_true'] at hpunct
        intro hor
        rw [endsWithPunct] at hpunct
        rcases hor with h | h | h <;> rw [h] at hpunct <;> simp at hpunct
    · rintro (hnum | ⟨⟨c, hc, hca⟩, hall, hlen⟩ | ⟨hlen, hpunct⟩)
      · exact Or.inl (Or.inl ((matchNumberedHeading_iff _).mpr hnum))
      · refine Or.inl (Or.inr ⟨?_, hlen⟩)
        refine (Bool.and_eq_true _ _).mpr ⟨?_, ?_⟩
        · simp only [List.any_eq_true]
          exact ⟨c, hc, hca⟩
        · simp only [List.all_eq_true, Bool.or_eq_true, Bool.not_eq_true']
          intro x hx
          by_cases hxa : x.isAlpha = true
          · exact Or.inr (hall x hx hxa)
          · exact Or.inl (Bool.eq_false_iff.mpr hxa)
      · refine Or.inr ⟨by simpa using hlen, ?_⟩
        simp only [Bool.not_eq_true']
        rw [endsWithPunct]
        cases hlast : (pyStrip s).data.getLast? with
        | none => rfl
        | some c =>
          have h1 : c ≠ '.' := fun h => hpunct (Or.inl (by rw [hlast, h]))
          have h2 : c ≠ '!' := fun h => hpunct (Or.inr (Or.inl (by rw [hlast, h])))
          have h3 : c ≠ '?' := fun h => hpunct (Or.inr (Or.inr (by rw [hlast, h])))
          simp [h1, h2, h3]
  · intro enc dec config paragraphs sf now
    exact chunkDocGo_texts enc dec config sf now paragraphs "Unknown" "Unknown" 0

/-- Witness for the amended C5 at a concrete input: the section number of
`"1.2 Title"` is the dot-terminated group run `"1."` with the dot stripped,
i.e. `"1"`. -/
theorem heading_and_section_semantics_witness :
    ([['1', '.']] : List (List Char)) ≠ []
    ∧ (∀ g ∈ ([['1', '.']] : List (List Char)), ValidGroup g)
    ∧ NoGroupStart ("2 Title".data)
    ∧ (pyStrip "1.2 Title").data =
        ([['1', '.']] : List (List Char)).flatten ++ "2 Title".data
    ∧ extract_section_number "1.2 Title" =
        String.mk (stripDotsRight ([['1', '.']] : List (List Char)).flatten) := by
  have hne : ([['1', '.']] : List (List Char)) ≠ [] := by simp
  have hvalid : ∀ g ∈ ([['1', '.']] : List (List Char)), ValidGroup g := by
    intro g hg
    simp only [List.mem_singleton] at hg
    subst hg
    exact ⟨['1'], by simp, by decide, rfl⟩
  have hng : NoGroupStart ("2 Title".data) := by
    intro ds r _ _ heq
    have hmem : '.' ∈ ("2 Title".data) := by
      rw [heq]; exact List.mem_append_right _ (List.mem_cons_self _ _)
    exact absurd hmem (by decide)
  have hdata : (pyStrip "1.2 Title").data =
      ([['1', '.']] : List (List Char)).flatten ++ "2 Title".data := by decide
  exact ⟨hne, hvalid, hng, hdata,
    heading_and_section_semantics.2.2.1 "1.2 Title" [['1', '.']] "2 Title".data
      hne hvalid hng hdata⟩

/-! ## Job Memory (`memory/job_memory.py`)

Wall-clock readings (`datetime.now()`) are abstracted as explicit
parameters: timestamps are opaque strings and the elapsed time is passed in
as a rational number of hours. -/

/-- `JobMemoryConfig` from `config/settings.py`. -/
structure JobMemoryConfig where
  max_memory_tokens : Nat
  enable_compression : Bool
  compression_ratio : ℚ
  retain_key_findings : Bool
  retain_quality_scores : Bool
  retain_cost_tracking : Bool
  deriving Repr, DecidableEq

/-- The default `JobMemoryConfig()` values. -/
def defaultJobMemoryConfig : JobMemoryConfig :=
  { max_memory_tokens := 2000, enable_compression := true
    compression_ratio := 1 / 2, retain_key_findings := true
    retain_quality_scores := true, retain_cost_tracking := true }

/-- `StageCompletion` dataclass (`coverage` is an opaque metric map). -/
structure StageCompletion where
  stage : Int
  completed_at : String
  key_findings : List String
  coverage : List (String × String)
  quality_score : ℚ
  cost : ℚ
  deriving Repr, DecidableEq

/-- The `constraints` dictionary (all four keys are present from
initialization on). -/
structure Constraints where
  budget_limit : ℚ
  budget_used : ℚ
  time_limit_hours : Int
  time_elapsed_hours : ℚ
  deriving Repr, DecidableEq

/-- The `current_stage` dictionary (the keys the digest reads). -/
structure CurrentStage where
  stage : Int
  status : String
  percentage_complete : ℚ
  deriving Repr, DecidableEq

/-- `JobMemory` dataclass.  `costs_by_stage` is an insertion-ordered
key-value list, as a Python dict is. -/
structure JobMemory where
  job_id : String
  created_at : String
  updated_at : String
  executive_summary : String
  completed_stages : List StageCompletion
  current_stage : CurrentStage
  gaps_identified : List String
  constraints : Constraints
  risks : List String
  costs_by_stage : List (String × ℚ)
  deriving Repr, DecidableEq

/-- The memory created by `JobMemoryManager.__init__`. -/
def initJobMemory (job_id now : String) : JobMemory :=
  { job_id := job_id, created_at := now, updated_at := now
    executive_summary := "Job initialized"
    completed_stages := []
    current_stage := { stage := 0, status := "in_progress", percentage_complete := 0 }
    gaps_identified := []
    constraints := { budget_limit := 200, budget_used := 0
                     time_limit_hours := 12, time_elapsed_hours := 0 }
    risks := [], costs_by_stage := [] }

/-- Python's `f"{x:.0f}"`.  (Python rounds half-to-even while `round`
rounds half-up; they agree away from exact half-integers, which covers
every value below.) -/
def fmt0 (q : ℚ) : String := toString (round q)

/-- Python's `f"{x:.1f}"` (same half-integer caveat as `fmt0`). -/
def fmt1 (q : ℚ) : String :=
  let n := round (q * 10)
  let a := n.natAbs
  (if n < 0 then "-" else "") ++ toString (a / 10) ++ "." ++ toString (a % 10)

/-- Python's `f"{x:.2f}"` (same half-integer caveat as `fmt0`). -/
def fmt2 (q : ℚ) : String :=
  let n := round (q * 100)
  let a := n.natAbs
  (if n < 0 then "-" else "") ++ toString (a / 100) ++ "." ++
    (if a % 100 < 10 then "0" else "") ++ toString (a % 100)

/-- The budget block of `JobMemoryManager._update_risks`: note all three
thresholds are strict (`>`), so a ratio of exactly 75% falls through to the
MEDIUM branch. -/
def budgetRisks (m : JobMemory) : List String :=
  let budget_used := m.constraints.budget_used
  let budget_limit := m.constraints.budget_limit
  let budget_pct : ℚ := if 0 < budget_limit then budget_used / budget_limit * 100 else 0
  if budget_pct > 90 then ["Budget risk: CRITICAL (" ++ fmt0 budget_pct ++ "% used)"]
  else if budget_pct > 75 then ["Budget risk: HIGH (" ++ fmt0 budget_pct ++ "% used)"]
  else if budget_pct > 50 then ["Budget risk: MEDIUM (" ++ fmt0 budget_pct ++ "% used)"]
  else []

/-- The time block of `_update_risks` (no MEDIUM tier for time). -/
def timeRisks (m : JobMemory) : List String :=
  let time_elapsed := m.constraints.time_elapsed_hours
  let time_limit : ℚ := (m.constraints.time_limit_hours : ℚ)
  let time_pct : ℚ := if 0 < time_limit then time_elapsed / time_limit * 100 else 0
  if time_pct > 90 then ["Time risk: CRITICAL (" ++ fmt0 time_pct ++ "% elapsed)"]
  else if time_pct > 75 then ["Time risk: HIGH (" ++ fmt0 time_pct ++ "% elapsed)"]
  else []

/-- The quality block of `_update_risks`. -/
def qualityRisks (m : JobMemory) : List String :=
  if m.completed_stages.isEmpty then []
  else
    let avg_quality :=
      (m.completed_stages.map (fun st => st.quality_score)).sum /
        (m.completed_stages.length : ℚ)
    if avg_quality < 80 then
      ["Quality risk: MEDIUM (avg score: " ++ fmt1 avg_quality ++ ")"]
    else []

/-- `JobMemoryManager._update_risks`: clear `risks` and re-derive the
budget, time and quality entries in that order. -/
def update_risks (m : JobMemory) : JobMemory :=
  { m with risks := budgetRisks m ++ timeRisks m ++ qualityRisks m }

/-- `self.memory.costs_by_stage[key] = cost` on the insertion-ordered
dictionary. -/
def updateCost (costs : List (String × ℚ)) (key : String) (v : ℚ) :
    List (String × ℚ) :=
  if costs.any (fun p => p.1 = key) then
    costs.map (fun p => if p.1 = key then (key, v) else p)
  else costs ++ [(key, v)]

/-- Python's `round(x, 2)` (half-integer caveat as in `fmt0`). -/
def round2 (q : ℚ) : ℚ := ((round (q * 100) : ℤ) : ℚ) / 100

/-- `JobMemoryManager.complete_stage`: append the completion, store the
stage cost, recompute `budget_used` as the sum of all stage costs, record
the elapsed hours, recompute the risks, and touch `updated_at`. -/
def complete_stage (m : JobMemory) (stage : Int) (key_findings : List String)
    (coverage : List (String × String)) (quality_score cost : ℚ)
    (now : String) (elapsed_hours : ℚ) : JobMemory :=
  let completion : StageCompletion :=
    { stage := stage, completed_at := now, key_findings := key_findings
      coverage := coverage, quality_score := quality_score, cost := cost }
  let costs := updateCost m.costs_by_stage ("stage_" ++ toString stage) cost
  let total_cost := (costs.map (fun p => p.2)).sum
  let m1 := { m with
    completed_stages := m.completed_stages ++ [completion]
    costs_by_stage := costs
    constraints := { m.constraints with
      budget_used := total_cost
      time_elapsed_hours := round2 elapsed_hours } }
  let m2 := update_risks m1
  { m2 with updated_at := now }

/-- `JobMemoryManager.update_current_stage`: wholesale replacement,
`completed_stages` untouched. -/
def update_current_stage (m : JobMemory) (stage : Int) (status : String)
    (percentage_complete : ℚ) (now : String) : JobMemory :=
  { m with
    current_stage := { stage := stage, status := status
                       percentage_complete := percentage_complete }
    updated_at := now }

/-! ### C4 — budget-risk thresholds -/

theorem str_data_append (s t : String) : (s ++ t).data = s.data ++ t.data := rfl

theorem string_ne_of_get13 {s t : String} (h : s.data[13]? ≠ t.data[13]?) :
    s ≠ t := fun he => h (by rw [he])

theorem risk_get13 (lit mid suf : String) (h : 13 < lit.data.length) :
    ((lit ++ mid) ++ suf).data[13]? = lit.data[13]? := by
  rw [str_data_append, str_data_append,
    List.getElem?_append_left (by rw [List.length_append]; omega),
    List.getElem?_append_left h]

theorem crit_ne_high (x y : String) :
    "Budget risk: CRITICAL (" ++ x ++ "% used)" ≠
      "Budget risk: HIGH (" ++ y ++ "% used)" := by
  apply string_ne_of_get13
  rw [risk_get13 _ _ _ (by decide), risk_get13 _ _ _ (by decide)]
  decide

theorem crit_ne_med (x y : String) :
    "Budget risk: CRITICAL (" ++ x ++ "% used)" ≠
      "Budget risk: MEDIUM (" ++ y ++ "% used)" := by
  apply string_ne_of_get13
  rw [risk_get13 _ _ _ (by decide), risk_get13 _ _ _ (by decide)]
  decide

theorem high_ne_med (x y : String) :
    "Budget risk: HIGH (" ++ x ++ "% used)" ≠
      "Budget risk: MEDIUM (" ++ y ++ "% used)" := by
  apply string_ne_of_get13
  rw [risk_get13 _ _ _ (by decide), risk_get13 _ _ _ (by decide)]
  decide

theorem singleton_ne_of_ne {a b : String} (h : a ≠ b) :
    ([a] : List String) ≠ [b] := by
  intro he
  injection he with h1 _
  exact h h1

/-- The amended characterization of the budget block: exactly one entry
whose level is determined by strict thresholds at 50/75/90%. -/
def BudgetRiskIffs (m : JobMemory) : Prop :=
  let pct := m.constraints.budget_used / m.constraints.budget_limit * 100
  (budgetRisks m = ["Budget risk: CRITICAL (" ++ fmt0 pct ++ "% used)"] ↔ 90 < pct)
  ∧ (budgetRisks m = ["Budget risk: HIGH (" ++ fmt0 pct ++ "% used)"] ↔
      75 < pct ∧ pct ≤ 90)
  ∧ (budgetRisks m = ["Budget risk: MEDIUM (" ++ fmt0 pct ++ "% used)"] ↔
      50 < pct ∧ pct ≤ 75)
  ∧ (budgetRisks m = [] ↔ pct ≤ 50)

theorem budgetRisks_eval (m : JobMemory) (hlim : 0 < m.constraints.budget_limit) :
    budgetRisks m =
      (let pct := m.constraints.budget_used / m.constraints.budget_limit * 100
       if pct > 90 then ["Budget risk: CRITICAL (" ++ fmt0 pct ++ "% used)"]
       else if pct > 75 then ["Budget risk: HIGH (" ++ fmt0 pct ++ "% used)"]
       else if pct > 50 then ["Budget risk: MEDIUM (" ++ fmt0 pct ++ "% used)"]
       else []) := by
  simp only [budgetRisks, if_pos hlim]

theorem budgetRiskIffs_of_pos (m : JobMemory)
    (hlim : 0 < m.constraints.budget_limit) : BudgetRiskIffs m := by
  simp only [BudgetRiskIffs]
  rw [budgetRisks_eval m hlim]
  set pct := m.constraints.budget_used / m.constraints.budget_limit * 100 with hpct
  simp only []
  by_cases h90 : pct > 90
  · rw [if_pos h90]
    refine ⟨iff_of_true rfl h90,
      iff_of_false (singleton_ne_of_ne (crit_ne_high _ _)) ?_,
      iff_of_false (singleton_ne_of_ne (crit_ne_med _ _)) ?_,
      iff_of_false (by simp) (by linarith)⟩
    · rintro ⟨_, hle⟩; linarith
    · rintro ⟨_, hle⟩; linarith
  · by_cases h75 : pct > 75
    · rw [if_neg h90, if_pos h75]
      refine ⟨iff_of_false (singleton_ne_of_ne (crit_ne_high _ _).symm) h90,
        iff_of_true rfl ⟨h75, not_lt.mp h90⟩,
        iff_of_false (singleton_ne_of_ne (high_ne_med _ _)) ?_,
        iff_of_false (by simp) (by linarith)⟩
      rintro ⟨_, hle⟩; linarith
    · by_cases h50 : pct > 50
      · rw [if_neg h90, if_neg h75, if_pos h50]
        refine ⟨iff_of_false (singleton_ne_of_ne (crit_ne_med _ _).symm) h90,
          iff_of_false (singleton_ne_of_ne (high_ne_med _ _).symm) ?_,
          iff_of_true rfl ⟨h50, not_lt.mp h75⟩,
          iff_of_false (by simp) (by linarith)⟩
        rintro ⟨hlt, _⟩; linarith [not_lt.mp h90]
      · rw [if_neg h90, if_neg h75, if_neg h50]
        refine ⟨iff_of_false (by simp) h90,
          iff_of_false (by simp) ?_,
          iff_of_false (by simp) ?_,
          iff_of_true rfl (not_lt.mp h50)⟩
        · rintro ⟨hlt, _⟩; linarith
        · rintro ⟨hlt, _⟩; linarith

/-- A job whose single completed stage costs 150 of the 200 budget:
exactly 75%. -/
def boundaryMemory : JobMemory :=
  complete_stage (initJobMemory "job-75" "t0") 1 [] [] 90 150 "t1" 0

/-- Counterexample to C4 as stated: at a ratio of exactly 75% the code's
strict `>` comparisons skip the HIGH branch, so the recomputed risk list
carries a MEDIUM entry, not the HIGH entry the claim asserts. -/
theorem budget_risk_exact_75_is_medium :
    boundaryMemory.constraints.budget_used = 150
    ∧ (150 : ℚ) / 200 * 100 = 75
    ∧ boundaryMemory.risks = ["Budget risk: MEDIUM (75% used)"]
    ∧ "Budget risk: HIGH (75% used)" ∉ boundaryMemory.risks := by
  have hrisks : boundaryMemory.risks = ["Budget risk: MEDIUM (75% used)"] := by
    simp only [boundaryMemory, complete_stage, update_risks, initJobMemory, updateCost]
    norm_num [budgetRisks, timeRisks, qualityRisks, round2, round_zero]
    rw [show fmt0 (75 : ℚ) = "75" from by
      rw [fmt0, show round ((75 : ℚ)) = 75 from by norm_num [round_eq]]; rfl]
    rfl
  refine ⟨?_, by norm_num, hrisks, ?_⟩
  · simp only [boundaryMemory, complete_stage, update_risks, initJobMemory, updateCost]
    norm_num
  · rw [hrisks]
    simp only [List.mem_singleton]
    decide

/-- Scenario D: budget limit 200, three completed stages costing 50, 60
and 80 (quality 90 each). -/
def scenarioD : JobMemory :=
  complete_stage
    (complete_stage
      (complete_stage (initJobMemory "job-d" "t0") 1 [] [] 90 50 "t1" 0)
      2 [] [] 90 60 "t2" 0)
    3 [] [] 90 80 "t3" 0

/-- C4 (amended): risk recomputation clears `risks` and re-derives the
budget, time and quality entries; the budget thresholds are strict, mapping
ratio > 50% to MEDIUM, > 75% to HIGH and > 90% to CRITICAL, so a ratio of
exactly 75% maps to MEDIUM (not HIGH); with `budget_limit = 200` and three
completed stages costing 50, 60 and 80, `constraints.budget_used` is 190
and the risk list contains a CRITICAL budget entry (95% used). -/
theorem budget_risk_strict_thresholds :
    (∀ m : JobMemory, 0 < m.constraints.budget_limit → BudgetRiskIffs m)
    ∧ (∀ m : JobMemory, (update_risks m).risks =
        budgetRisks m ++ timeRisks m ++ qualityRisks m)
    ∧ scenarioD.constraints.budget_used = 190
    ∧ "Budget risk: CRITICAL (95% used)" ∈ scenarioD.risks := by
  have hc1 : updateCost [] ("stage_" ++ toString (1 : Int)) 50 =
      [("stage_1", (50 : ℚ))] := rfl
  have hc2 : updateCost [("stage_1", (50 : ℚ))] ("stage_" ++ toString (2 : Int)) 60 =
      [("stage_1", (50 : ℚ)), ("stage_2", 60)] := rfl
  have hc3 : updateCost [("stage_1", (50 : ℚ)), ("stage_2", (60 : ℚ))]
      ("stage_" ++ toString (3 : Int)) 80 =
      [("stage_1", (50 : ℚ)), ("stage_2", 60), ("stage_3", 80)] := rfl
  refine ⟨budgetRiskIffs_of_pos, fun m => rfl, ?_, ?_⟩
  · simp only [scenarioD, complete_stage, update_risks, initJobMemory]
    rw [hc1, hc2, hc3]
    norm_num
  · simp only [scenarioD, complete_stage, update_risks, initJobMemory]
    rw [hc1, hc2, hc3]
    norm_num [budgetRisks, timeRisks, qualityRisks, round2, round_zero]
    rw [show fmt0 (95 : ℚ) = "95" from by
      rw [fmt0, show round ((95 : ℚ)) = 95 from by norm_num [round_eq]]; rfl]
    simp

/-- Witness for the amended C4 at a concrete input. -/
theorem budget_risk_strict_thresholds_witness :
    0 < scenarioD.constraints.budget_limit ∧ BudgetRiskIffs scenarioD := by
  have hlim : 0 < scenarioD.constraints.budget_limit := by
    simp only [scenarioD, complete_stage, update_risks, initJobMemory]
    norm_num
  exact ⟨hlim, budget_risk_strict_thresholds.1 scenarioD hlim⟩

/-! ### C8 — the compressed memory digest is bounded -/

/-- `JobMemory.to_json` (the uncompressed early return when
`enable_compression` is off); a plain JSON rendering of the field set —
no theorem below depends on its exact shape. -/
def jobToJson (m : JobMemory) : String :=
  "\x7b\"job_id\": \"" ++ m.job_id ++ "\", \"created_at\": \"" ++ m.created_at
    ++ "\", \"updated_at\": \"" ++ m.updated_at ++ "\", \"executive_summary\": \""
    ++ m.executive_summary ++ "\", \"completed_stages\": ["
    ++ String.intercalate ", " (m.completed_stages.map (fun st =>
        "\x7b\"stage\": " ++ toString st.stage ++ ", \"quality_score\": "
          ++ fmt1 st.quality_score ++ ", \"cost\": " ++ fmt2 st.cost ++ "\x7d"))
    ++ "], \"gaps_identified\": ["
    ++ String.intercalate ", " (m.gaps_identified.map (fun g => "\"" ++ g ++ "\""))
    ++ "], \"risks\": ["
    ++ String.intercalate ", " (m.risks.map (fun r => "\"" ++ r ++ "\""))
    ++ "]\x7d"

/-- The `compressed` line list built by
`JobMemoryManager.get_compressed_memory` (header, condensed stages with up
to three findings each, current stage, up to three gaps, constraints,
risks), in the source's order. -/
def compressedLines (config : JobMemoryConfig) (m : JobMemory) : List String :=
  ["JOB: " ++ m.job_id, "STATUS: " ++ m.executive_summary, ""]
  ++ (if m.completed_stages.isEmpty then [] else
      "COMPLETED STAGES:" ::
        ((m.completed_stages.map (fun st =>
          ("  Stage " ++ toString st.stage ++ ": Quality " ++ fmt0 st.quality_score
            ++ ", Cost $" ++ fmt2 st.cost)
          :: (if config.retain_key_findings ∧ ¬ st.key_findings.isEmpty then
                (st.key_findings.take 3).map (fun f => "    - " ++ f)
              else []))).flatten
        ++ [""]))
  ++ ["CURRENT: Stage " ++ toString m.current_stage.stage ++ " ("
        ++ fmt0 m.current_stage.percentage_complete ++ "% complete)", ""]
  ++ (if m.gaps_identified.isEmpty then [] else
      ("GAPS: " ++ toString m.gaps_identified.length ++ " identified")
        :: (m.gaps_identified.take 3).map (fun g => "  - " ++ g) ++ [""])
  ++ ["CONSTRAINTS:"]
  ++ (if config.retain_cost_tracking then
      ["  Budget: $" ++ fmt2 m.constraints.budget_used ++ " / $"
        ++ fmt2 m.constraints.budget_limit]
      else [])
  ++ ["  Time: " ++ fmt1 m.constraints.time_elapsed_hours ++ "h / "
        ++ toString m.constraints.time_limit_hours ++ "h", ""]
  ++ (if m.risks.isEmpty then [] else "RISKS:" :: m.risks.map (fun r => "  - " ++ r))

/-- Python's `max_tokens or self.config.max_memory_tokens`: `None` and `0`
are falsy and fall back to the configured default. -/
def effectiveMaxTokens (config : JobMemoryConfig) (max_tokens : Option Nat) : Nat :=
  match max_tokens with
  | none => config.max_memory_tokens
  | some n => if n = 0 then config.max_memory_tokens else n

/-- `JobMemoryManager.get_compressed_memory`: render the digest; if the
`len(result) // 4` token estimate exceeds the budget, hard-truncate to
`max_tokens * 4` characters and append the truncation marker. -/
def get_compressed_memory (config : JobMemoryConfig) (m : JobMemory)
    (max_tokens : Option Nat) : String :=
  let maxTok := effectiveMaxTokens config max_tokens
  if ¬ config.enable_compression then jobToJson m
  else
    let result := String.intercalate "\n" (compressedLines config m)
    let estimated_tokens := result.length / 4
    if estimated_tokens > maxTok then
      pySlice result (maxTok * 4) ++ "\n[... truncated]"
    else result

theorem pySlice_length_le (s : String) (n : Nat) : (pySlice s n).length ≤ n := by
  rw [pySlice]
  show (s.data.take n).length ≤ n
  rw [List.length_take]
  exact min_le_left _ _

theorem str_length_append (s t : String) : (s ++ t).length = s.length + t.length := by
  show (s ++ t).data.length = s.data.length + t.data.length
  rw [str_data_append, List.length_append]

/-- C8: with compression enabled, the digest's length is bounded by
`4 * max_tokens` plus the 16-character truncation marker `"\n[... truncated]"`,
for every job state and every `max_tokens` (where `None`/`0` fall back to
the configured default) — the digest never grows unbounded. -/
theorem compressed_memory_bounded :
    ∀ (config : JobMemoryConfig) (m : JobMemory) (max_tokens : Option Nat),
      config.enable_compression = true →
      (get_compressed_memory config m max_tokens).length ≤
        4 * effectiveMaxTokens config max_tokens + ("\n[... truncated]").length := by
  intro config m max_tokens hc
  rw [get_compressed_memory]
  simp only [hc, not_true_eq_false, if_false]
  set result := String.intercalate "\n" (compressedLines config m) with hres
  set maxTok := effectiveMaxTokens config max_tokens with hmax
  by_cases hbig : result.length / 4 > maxTok
  · rw [if_pos hbig, str_length_append]
    have h1 := pySlice_length_le result (maxTok * 4)
    have h2 : ("\n[... truncated]").length = 16 := rfl
    omega
  · rw [if_neg hbig]
    have h2 : ("\n[... truncated]").length = 16 := rfl
    omega

/-- Witness for C8 at a concrete input. -/
theorem compressed_memory_bounded_witness :
    defaultJobMemoryConfig.enable_compression = true
    ∧ (get_compressed_memory defaultJobMemoryConfig (initJobMemory "job-w" "t0")
        none).length ≤
      4 * effectiveMaxTokens defaultJobMemoryConfig none + ("\n[... truncated]").length :=
  ⟨rfl, compressed_memory_bounded defaultJobMemoryConfig (initJobMemory "job-w" "t0")
    none rfl⟩

end RagPipeline
